import Mathlib

/-!
# catz: strftime-to-regex compiler and line rewriter

A shallow embedding of `main.go` of billhathaway/catz: the directive table
`strfmtimeRE`, the pattern compiler `controller.strfimeToRE`, the token
converter `controller.replaceTime` and the line rewriter
`controller.replaceLine`.

Go strings are byte sequences; they are modelled as lists of byte values.
The standard-library packages the program calls (`unicode/utf8`, `regexp`,
`time`, `fmt`) are not part of the repository: `utf8` and a fragment of
`regexp` are modelled from their documented behaviour, `time` is a parameter.
-/

namespace Catz

/-- A Go string: an immutable sequence of bytes (values below 256). -/
abbrev Str := List Nat

/-! ## unicode/utf8 -/

namespace utf8

/-- The replacement rune U+FFFD that decoding yields for an invalid byte. -/
def RuneError : Nat := 0xFFFD

/-- A continuation byte, 0x80 to 0xBF. -/
def isCont (b : Nat) : Bool := 0x80 ≤ b && b ≤ 0xBF

/-- Lower bound of the second byte accepted after the leading byte `s0`. -/
def acceptLo (s0 : Nat) : Nat :=
  if s0 = 0xE0 then 0xA0 else if s0 = 0xF0 then 0x90 else 0x80

/-- Upper bound of the second byte accepted after the leading byte `s0`. -/
def acceptHi (s0 : Nat) : Nat :=
  if s0 = 0xED then 0x9F else if s0 = 0xF4 then 0x8F else 0xBF

/-- `utf8.DecodeRuneInString`: the first rune of `s` and its width in bytes;
`(RuneError, 0)` for the empty string and `(RuneError, 1)` for an invalid or
truncated encoding. -/
def DecodeRune : Str → Nat × Nat
  | [] => (RuneError, 0)
  | s0 :: t =>
    if s0 < 0x80 then (s0, 1)
    else if s0 < 0xC2 then (RuneError, 1)
    else if s0 ≤ 0xDF then
      match t with
      | s1 :: _ =>
        if isCont s1 then ((s0 % 32) * 64 + s1 % 64, 2) else (RuneError, 1)
      | [] => (RuneError, 1)
    else if s0 ≤ 0xEF then
      match t with
      | s1 :: s2 :: _ =>
        if acceptLo s0 ≤ s1 && s1 ≤ acceptHi s0 && isCont s2 then
          ((s0 % 16) * 4096 + (s1 % 64) * 64 + s2 % 64, 3)
        else (RuneError, 1)
      | _ => (RuneError, 1)
    else if s0 ≤ 0xF4 then
      match t with
      | s1 :: s2 :: s3 :: _ =>
        if acceptLo s0 ≤ s1 && s1 ≤ acceptHi s0 && isCont s2 && isCont s3 then
          ((s0 % 8) * 262144 + (s1 % 64) * 4096 + (s2 % 64) * 64 + s3 % 64, 4)
        else (RuneError, 1)
      | _ => (RuneError, 1)
    else (RuneError, 1)

/-- `utf8.AppendRune`: the UTF-8 encoding of the rune `r`; surrogates and
values above U+10FFFF are encoded as `RuneError`. -/
def EncodeRune (r : Nat) : Str :=
  if r ≤ 0x7F then [r]
  else if r ≤ 0x7FF then [0xC0 + r / 64, 0x80 + r % 64]
  else if 0x10FFFF < r ∨ (0xD800 ≤ r ∧ r ≤ 0xDFFF) then [0xEF, 0xBF, 0xBD]
  else if r ≤ 0xFFFF then [0xE0 + r / 4096, 0x80 + (r / 64) % 64, 0x80 + r % 64]
  else [0xF0 + r / 262144, 0x80 + (r / 4096) % 64, 0x80 + (r / 64) % 64, 0x80 + r % 64]

/-- The runes of a string with their widths, as produced by repeated
decoding; `fuel` bounds the number of runes. -/
def decodeAll : Nat → Str → List (Nat × Nat)
  | 0, _ => []
  | _, [] => []
  | n + 1, b :: t =>
    DecodeRune (b :: t) :: decodeAll n (t.drop ((DecodeRune (b :: t)).2 - 1))

end utf8

/-- The bytes of a Lean string literal, as the Go source file would hold it. -/
def str (s : String) : Str := s.toList.flatMap fun c => utf8.EncodeRune c.toNat

/-- The byte values `s[i]` that a Go loop `for i := range s` visits: the
first byte of every rune of `s` (an invalid byte is a rune of width 1). -/
def rangeLoop : Nat → Str → List Nat
  | 0, _ => []
  | _, [] => []
  | n + 1, b :: t => b :: rangeLoop n (t.drop ((utf8.DecodeRune (b :: t)).2 - 1))

/-- The sequence of `format[i]` for `i := range format`. -/
def rangeFirstBytes (s : Str) : List Nat := rangeLoop s.length s

/-! ## regexp (fragment)

The program hands the assembled source text to `regexp.Compile` and later
calls `FindAllStringIndex` on the result. The model below covers the part of
the RE2 syntax accepted by `regexp.Compile` that is listed at `Compile`, with
the leftmost-first matching of the package; a source text that uses anything
else is reported as `Error.outsideFragment`, which stands for "not decided by
this model" and never for an error of the real package. -/

namespace regexp

/-- One member of a bracket expression: a set of rune ranges, or (for the
negated Perl classes) its complement. -/
structure ClassItem where
  neg : Bool
  ranges : List (Nat × Nat)
deriving DecidableEq, Repr

/-- The parsed regular expression (`syntax.Regexp`), over runes. -/
inductive Regex where
  | emptyMatch
  | literal (r : Nat)
  | charClass (neg : Bool) (items : List ClassItem)
  | anyCharNotNL
  | beginText
  | endText
  | capture (sub : Regex)
  | star (greedy : Bool) (sub : Regex)
  | plus (greedy : Bool) (sub : Regex)
  | quest (greedy : Bool) (sub : Regex)
  | rep (greedy : Bool) (min : Nat) (max : Option Nat) (sub : Regex)
  | concat (a b : Regex)
  | alternate (a b : Regex)
deriving DecidableEq, Repr

/-- The error codes of `syntax.Error` that the fragment can raise, and the
marker for source texts outside the fragment. -/
inductive Error where
  | invalidCharRange
  | invalidEscape
  | invalidRepeatOp
  | invalidRepeatSize
  | invalidUTF8
  | missingBracket
  | missingParen
  | missingRepeatArgument
  | trailingBackslash
  | unexpectedParen
  | outsideFragment
deriving DecidableEq, Repr

/-- `Regexp.NumSubexp`: the number of parenthesised capturing groups. -/
def NumSubexp : Regex → Nat
  | .capture sub => NumSubexp sub + 1
  | .star _ sub => NumSubexp sub
  | .plus _ sub => NumSubexp sub
  | .quest _ sub => NumSubexp sub
  | .rep _ _ _ sub => NumSubexp sub
  | .concat a b => NumSubexp a + NumSubexp b
  | .alternate a b => NumSubexp a + NumSubexp b
  | _ => 0

/-! ### Parsing -/

/-- An ASCII decimal digit. -/
def isDigit (c : Nat) : Bool := 48 ≤ c && c ≤ 57

/-- The parser's `isalnum`: an ASCII letter or digit. -/
def isalnum (c : Nat) : Bool :=
  isDigit c || (65 ≤ c && c ≤ 90) || (97 ≤ c && c ≤ 122)

/-- The Perl classes `\d \D \s \S \w \W`, by the letter after the backslash. -/
def perlClass (c : Nat) : Option ClassItem :=
  if c = 100 then some ⟨false, [(48, 57)]⟩
  else if c = 68 then some ⟨true, [(48, 57)]⟩
  else if c = 115 then some ⟨false, [(9, 10), (12, 13), (32, 32)]⟩
  else if c = 83 then some ⟨true, [(9, 10), (12, 13), (32, 32)]⟩
  else if c = 119 then some ⟨false, [(48, 57), (65, 90), (95, 95), (97, 122)]⟩
  else if c = 87 then some ⟨true, [(48, 57), (65, 90), (95, 95), (97, 122)]⟩
  else none

/-- The parser's `parseInt`: a decimal number without a leading zero. -/
def parseInt (s : List Nat) : Option (Nat × List Nat) :=
  match s with
  | [] => none
  | c :: t =>
    if !isDigit c then none
    else if c = 48 && (match t with | d :: _ => isDigit d | [] => false) then none
    else some ((s.takeWhile isDigit).foldl (fun n d => n * 10 + (d - 48)) 0, s.dropWhile isDigit)

/-- The parser's `parseRepeat` on a text starting with an opening brace:
`{n}`, `{n,}` or `{n,m}`; `none` when the text is not of that shape (the
brace is then a literal). -/
def parseRepeat : List Nat → Option (Nat × Option Nat × List Nat)
  | 123 :: s =>
    match parseInt s with
    | none => none
    | some (mn, s1) =>
      match s1 with
      | 44 :: 125 :: rest => some (mn, none, rest)
      | 44 :: s2 =>
        match parseInt s2 with
        | none => none
        | some (mx, s3) =>
          match s3 with
          | 125 :: rest => some (mn, some mx, rest)
          | _ => none
      | 125 :: rest => some (mn, some mn, rest)
      | _ => none
  | _ => none

/-- The marker that stands for an invalid byte in the rune sequence the
parser reads: no rune has this value. -/
def invalidRune : Nat := 0x110000

/-- The runes of a source text as the parser's `nextRune` decodes them one
by one; an invalid byte is kept as `invalidRune`, so that the parser rejects
the text at the point where it reaches that byte. -/
def runesOf (s : Str) : List Nat :=
  (utf8.decodeAll s.length s).map fun d =>
    if d.1 = utf8.RuneError && d.2 = 1 then invalidRune else d.1

/-- The parser's `parseEscape`, on the text after the backslash: an escaped
ASCII punctuation character is itself. Escapes written with a letter or a
digit (`\n`, `\x41`, `\012`, ...) are outside the fragment. -/
def parseEscape : List Nat → Except Error (Nat × List Nat)
  | [] => .error .trailingBackslash
  | c :: t =>
    if c = invalidRune then .error .invalidUTF8
    else if c < 0x80 && !isalnum c then .ok (c, t)
    else if 0x80 ≤ c then .error .invalidEscape
    else .error .outsideFragment

/-- The parser's `parseClassChar`: one character of a bracket expression. -/
def parseClassChar : List Nat → Except Error (Nat × List Nat)
  | [] => .error .missingBracket
  | 92 :: t => parseEscape t
  | c :: t => if c = invalidRune then .error .invalidUTF8 else .ok (c, t)

/-- The loop of the parser's `parseClass`, after the opening bracket and the
optional `^`: collects the members up to the closing bracket. `first` says
that no member has been read yet (a `]` is then a literal). POSIX classes
`[:name:]` are outside the fragment. -/
def parseClassLoop : Nat → List Nat → Bool → List ClassItem →
    Except Error (List ClassItem × List Nat)
  | 0, _, _, _ => .error .outsideFragment
  | n + 1, t, first, acc =>
    match t, first with
    | 93 :: rest, false => .ok (acc.reverse, rest)
    | 91 :: 58 :: _ :: _, _ => .error .outsideFragment
    | _, _ =>
      match (match t with
             | 92 :: c :: rest => (perlClass c).map fun item => (item, rest)
             | _ => none) with
      | some (item, rest) => parseClassLoop n rest false (item :: acc)
      | none =>
        match parseClassChar t with
        | .error e => .error e
        | .ok (lo, t1) =>
          match t1 with
          | 45 :: c :: t2 =>
            if c = 93 then parseClassLoop n t1 false (⟨false, [(lo, lo)]⟩ :: acc)
            else
              match parseClassChar (c :: t2) with
              | .error e => .error e
              | .ok (hi, t3) =>
                if hi < lo then .error .invalidCharRange
                else parseClassLoop n t3 false (⟨false, [(lo, hi)]⟩ :: acc)
          | _ => parseClassLoop n t1 false (⟨false, [(lo, lo)]⟩ :: acc)

/-- The parser's `parseClass`, on the text after the opening bracket. -/
def parseClass (t : List Nat) : Except Error (Regex × List Nat) :=
  match t with
  | 94 :: t1 =>
    match parseClassLoop (t1.length + 1) t1 true [] with
    | .error e => .error e
    | .ok (items, rest) => .ok (.charClass true items, rest)
  | _ =>
    match parseClassLoop (t.length + 1) t true [] with
    | .error e => .error e
    | .ok (items, rest) => .ok (.charClass false items, rest)

/-- The parser's `repeatIsValid`: nested counted repetitions must not
multiply to more than `n` copies. -/
def repeatIsValid : Regex → Nat → Bool
  | .rep _ mn mx sub, n =>
    if mx = some 0 then true
    else if n < mx.getD mn then false
    else repeatIsValid sub (if 0 < mx.getD mn then n / mx.getD mn else n)
  | .capture sub, n => repeatIsValid sub n
  | .star _ sub, n => repeatIsValid sub n
  | .plus _ sub, n => repeatIsValid sub n
  | .quest _ sub, n => repeatIsValid sub n
  | .concat a b, n => repeatIsValid a n && repeatIsValid b n
  | .alternate a b, n => repeatIsValid a n && repeatIsValid b n
  | _, _ => true

/-- The concatenation of a sequence of pieces. -/
def concatList : List Regex → Regex
  | [] => .emptyMatch
  | [r] => r
  | r :: rs => .concat r (concatList rs)

/-- The alternation of a non-empty sequence of branches, leftmost first. -/
def alternateList : List Regex → Regex
  | [] => .emptyMatch
  | [r] => r
  | r :: rs => .alternate r (alternateList rs)

/-- What the parser has collected at the current nesting level: the finished
branches of the alternation and the pieces of the branch being read (both
newest first). -/
def collapse (alts cur : List Regex) : Regex :=
  alternateList ((concatList cur.reverse :: alts).reverse)

/-- A repetition operator read by the parser. -/
inductive RepOp where
  | star
  | plus
  | quest
  | count (min : Nat) (max : Option Nat)

/-- Applies a repetition operator to its operand. -/
def RepOp.apply (op : RepOp) (greedy : Bool) (sub : Regex) : Regex :=
  match op with
  | .star => .star greedy sub
  | .plus => .plus greedy sub
  | .quest => .quest greedy sub
  | .count mn mx => .rep greedy mn mx sub

/-- The main loop of `syntax.Parse` with the `Perl` flags, over the runes of
the source text. `alts` and `cur` are the operand stack of the current
nesting level (see `collapse`), `lastRep` says that the previous token was a
repetition operator, `inGroup` that an opening parenthesis is pending. The
fuel bounds the number of tokens. -/
def parseItems : Nat → List Nat → List Regex → List Regex → Bool → Bool →
    Except Error (Regex × List Nat)
  | 0, _, _, _, _, _ => .error .outsideFragment
  | n + 1, t, alts, cur, lastRep, inGroup =>
    let atom (re : Regex) (rest : List Nat) :=
      parseItems n rest alts (re :: cur) false inGroup
    let repetition (op : RepOp) (counted : Bool) (after : List Nat) :=
      let greedy := match after with | 63 :: _ => false | _ => true
      let after2 := match after with | 63 :: a => a | _ => after
      if lastRep then .error .invalidRepeatOp
      else
        match cur with
        | [] => .error .missingRepeatArgument
        | sub :: cur1 =>
          if counted && !repeatIsValid (op.apply greedy sub) 1000 then
            .error .invalidRepeatSize
          else parseItems n after2 alts (op.apply greedy sub :: cur1) true inGroup
    match t with
    | [] => if inGroup then .error .missingParen else .ok (collapse alts cur, [])
    | 40 :: 63 :: 58 :: body =>
      match parseItems n body [] [] false true with
      | .error e => .error e
      | .ok (sub, rest) => atom sub rest
    | 40 :: 63 :: _ => .error .outsideFragment
    | 40 :: body =>
      match parseItems n body [] [] false true with
      | .error e => .error e
      | .ok (sub, rest) => atom (.capture sub) rest
    | 124 :: rest =>
      parseItems n rest (concatList cur.reverse :: alts) [] false inGroup
    | 41 :: rest =>
      if inGroup then .ok (collapse alts cur, rest) else .error .unexpectedParen
    | 94 :: rest => atom .beginText rest
    | 36 :: rest => atom .endText rest
    | 46 :: rest => atom .anyCharNotNL rest
    | 91 :: rest =>
      match parseClass rest with
      | .error e => .error e
      | .ok (cls, rest1) => atom cls rest1
    | 42 :: rest => repetition .star false rest
    | 43 :: rest => repetition .plus false rest
    | 63 :: rest => repetition .quest false rest
    | 123 :: rest =>
      match parseRepeat (123 :: rest) with
      | none => atom (.literal 123) rest
      | some (mn, mx, after) =>
        if 1000 < mn || (match mx with | some m => 1000 < m || m < mn | none => false) then
          .error .invalidRepeatSize
        else repetition (.count mn mx) (2 ≤ mn || 2 ≤ mx.getD 0) after
    | 92 :: rest =>
      match (match rest with
             | c :: rest1 => (perlClass c).map fun item => (item, rest1)
             | [] => none) with
      | some (item, rest1) => atom (.charClass false [item]) rest1
      | none =>
        match parseEscape rest with
        | .error e => .error e
        | .ok (c, rest1) => atom (.literal c) rest1
    | c :: rest => if c = invalidRune then .error .invalidUTF8 else atom (.literal c) rest

/-- `regexp.Compile`: parses the source text into a matcher or reports the
syntax error.

The fragment: literal runes; `.`; `^` and `$`; the Perl classes
`\d \D \s \S \w \W`; a backslash before ASCII punctuation; bracket
expressions with ranges, negation, the Perl classes and escaped punctuation;
capturing groups `( )` and non-capturing groups `(?: )`; alternation `|`;
the repetitions `* + ? {n} {n,} {n,m}` and their non-greedy forms. Flags,
named groups, POSIX and Unicode classes, escapes written with a letter or
digit other than the Perl classes, and source texts longer than 1000 bytes
are outside the fragment. A byte that is not valid UTF-8 is the error
`invalidUTF8` when the parser reaches it. -/
def Compile (expr : Str) : Except Error Regex :=
  if 1000 < expr.length then .error .outsideFragment
  else
    match parseItems (expr.length + 1) (runesOf expr) [] [] false false with
    | .error e => .error e
    | .ok (re, _) => .ok re

/-! ### Matching -/

/-- A position in the searched text: the byte offset and the text from there. -/
structure Cursor where
  pos : Nat
  rest : Str
deriving DecidableEq, Repr

/-- What remains to be matched after a sub-expression: given the cursor
reached, the end offset of the whole match, if the remainder matches. -/
abbrev Cont := Cursor → Option Nat

/-- A sub-expression as a backtracking matcher in continuation-passing
style: the first success in priority order is the result. -/
abbrev Matcher := Cont → Cursor → Option Nat

/-- Ordered choice: the first alternative if it succeeds, else the second. -/
@[macro_inline] def orElse (a b : Option Nat) : Option Nat :=
  match a with
  | some e => some e
  | none => b

/-- Membership of a rune in a list of ranges. -/
def inRanges (r : Nat) (rs : List (Nat × Nat)) : Bool :=
  rs.any fun p => p.1 ≤ r && r ≤ p.2

/-- Membership of a rune in a member of a bracket expression. -/
def ClassItem.has (it : ClassItem) (r : Nat) : Bool :=
  it.neg != inRanges r it.ranges

/-- Membership of a rune in a (possibly negated) bracket expression. -/
def classHas (neg : Bool) (items : List ClassItem) (r : Nat) : Bool :=
  neg != items.any fun it => it.has r

/-- Consumes one rune of the text if it satisfies `ok`; an invalid byte is
the rune U+FFFD of width 1. -/
def stepIf (ok : Nat → Bool) : Matcher := fun k q =>
  match q.rest with
  | [] => none
  | b :: t =>
    if ok (utf8.DecodeRune (b :: t)).1 then
      k ⟨q.pos + (utf8.DecodeRune (b :: t)).2, t.drop ((utf8.DecodeRune (b :: t)).2 - 1)⟩
    else none

/-- The compiler's `nullable`: whether the compiled fragment can match
without consuming input. -/
def nullable : Regex → Bool
  | .emptyMatch => true
  | .literal _ => false
  | .charClass _ _ => false
  | .anyCharNotNL => false
  | .beginText => true
  | .endText => true
  | .capture sub => nullable sub
  | .star _ _ => true
  | .plus _ sub => nullable sub
  | .quest _ _ => true
  | .rep _ mn _ sub => mn = 0 || nullable sub
  | .concat a b => nullable a && nullable b
  | .alternate a b => nullable a || nullable b

/-- The loop instruction after one iteration of a repeated body: try the
body again or leave, in the order the greediness gives. An iteration that
consumed nothing returns to a state already being explored and is cut. -/
def loop (body : Matcher) (greedy : Bool) (k : Cont) : Nat → Cursor → Option Nat
  | 0, _ => none
  | n + 1, q =>
    if greedy then
      orElse (body (fun q1 => if q1.pos = q.pos then none else loop body greedy k n q1) q) (k q)
    else
      orElse (k q) (body (fun q1 => if q1.pos = q.pos then none else loop body greedy k n q1) q)

/-- The body once, then the loop. -/
def mPlus (greedy : Bool) (body : Matcher) : Matcher := fun k q =>
  body (fun q1 => if q1.pos = q.pos then k q1 else loop body greedy k (q1.rest.length + 1) q1) q

/-- The body or nothing. -/
def mQuest (greedy : Bool) (body : Matcher) : Matcher := fun k q =>
  if greedy then orElse (body k q) (k q) else orElse (k q) (body k q)

/-- Zero or more: the plain loop when the body cannot match empty, and
`(body+)?` when it can. -/
def mStar (greedy : Bool) (bodyNullable : Bool) (body : Matcher) : Matcher :=
  if bodyNullable then mQuest greedy (mPlus greedy body)
  else fun k q => loop body greedy k (q.rest.length + 1) q

/-- The body `n` times in a row. -/
def mPow (body : Matcher) : Nat → Matcher
  | 0 => fun k q => k q
  | n + 1 => fun k q => body (mPow body n k) q

/-- Up to `j` further optional copies, nested: `(x(x(x)?)?)?`. -/
def mOptNest (greedy : Bool) (body : Matcher) : Nat → Matcher
  | 0 => fun k q => k q
  | j + 1 => mQuest greedy fun k q => body (mOptNest greedy body j k) q

/-- A counted repetition, expanded as `Regexp.Simplify` does. -/
def mRep (greedy : Bool) (bodyNullable : Bool) (mn : Nat) (mx : Option Nat)
    (body : Matcher) : Matcher :=
  match mx with
  | none =>
    if mn = 0 then mStar greedy bodyNullable body
    else fun k q => mPow body (mn - 1) (mPlus greedy body k) q
  | some m =>
    if m < mn then fun _ _ => none
    else fun k q => mPow body mn (mOptNest greedy body (m - mn) k) q

/-- The matcher of a parsed expression. -/
def matchAt : Regex → Matcher
  | .emptyMatch => fun k q => k q
  | .literal r => stepIf fun c => c = r
  | .charClass neg items => stepIf (classHas neg items)
  | .anyCharNotNL => stepIf fun c => c ≠ 10
  | .beginText => fun k q => if q.pos = 0 then k q else none
  | .endText => fun k q => if q.rest = [] then k q else none
  | .capture sub => matchAt sub
  | .star greedy sub => mStar greedy (nullable sub) (matchAt sub)
  | .plus greedy sub => mPlus greedy (matchAt sub)
  | .quest greedy sub => mQuest greedy (matchAt sub)
  | .rep greedy mn mx sub => mRep greedy (nullable sub) mn mx (matchAt sub)
  | .concat a b => fun k q => matchAt a (matchAt b k) q
  | .alternate a b => fun k q => orElse (matchAt a k q) (matchAt b k q)

/-- The unanchored search of `doExecute`: the leftmost start at or after the
cursor from which the expression matches, with the end of the match chosen
leftmost-first. Starts are tried rune by rune, the end of the text included. -/
def search (re : Regex) : Nat → Cursor → Option (Nat × Nat)
  | 0, _ => none
  | n + 1, q =>
    match matchAt re (fun q1 => some q1.pos) q with
    | some e => some (q.pos, e)
    | none =>
      match q.rest with
      | [] => none
      | b :: t =>
        search re n ⟨q.pos + (utf8.DecodeRune (b :: t)).2,
          t.drop ((utf8.DecodeRune (b :: t)).2 - 1)⟩

/-- Where `allMatches` resumes after a match ending at `e` that was searched
from `pos`: after an empty match at `pos` one rune further (past the end if
no rune is left), otherwise at the end of the match. -/
def nextPos (s : Str) (pos e : Nat) : Nat :=
  if e = pos then
    if 0 < (utf8.DecodeRune (s.drop pos)).2 then pos + (utf8.DecodeRune (s.drop pos)).2
    else s.length + 1
  else e

/-- The loop of `Regexp.allMatches`: successive non-overlapping matches from
`pos` on, at most `n` of them; an empty match directly after the previous
match is skipped. `prevMatchEnd` is `none` for the initial -1. -/
def allMatches (re : Regex) (s : Str) : Nat → Nat → Nat → Option Nat → List (Nat × Nat)
  | 0, _, _, _ => []
  | fuel + 1, n, pos, prevMatchEnd =>
    if n = 0 ∨ s.length < pos then []
    else
      match search re ((s.drop pos).length + 1) ⟨pos, s.drop pos⟩ with
      | none => []
      | some (b, e) =>
        if e = pos ∧ prevMatchEnd = some b then
          allMatches re s fuel n (nextPos s pos e) (some e)
        else (b, e) :: allMatches re s fuel (n - 1) (nextPos s pos e) (some e)

/-- `Regexp.FindAllStringIndex`: the spans of the successive matches of the
expression in `s`, at most `n` if `n ≥ 0` and all of them otherwise; the
empty list is Go's nil result. -/
def FindAllStringIndex (re : Regex) (s : Str) (n : Int) : List (Nat × Nat) :=
  allMatches re s (s.length + 2) (if n < 0 then s.length + 1 else n.toNat) 0 none

end regexp

/-! ## time

The calendar and zone arithmetic of the `time` package is an external
capability; the program only needs the three operations below. -/

/-- The operations of the `time` package that the program calls. -/
structure TimePkg where
  /-- An instant with the location it is displayed in (`time.Time`). -/
  Time : Type
  /-- A time zone (`*time.Location`). -/
  Location : Type
  /-- `time.ParseInLocation(layout, value, loc)`: the instant or an error text. -/
  ParseInLocation : Str → Str → Location → Except Str Time
  /-- The method `t.In(loc)`: the same instant, displayed in `loc`. -/
  In : Time → Location → Time
  /-- The method `t.Format(layout)`. -/
  Format : Time → Str → Str

/-! ## The program -/

/-- A Go `error` value as the program produces it: a formatted message, a
syntax error of the regexp package, or the error of a failed time parse. -/
inductive GoError where
  | errorf (msg : Str)
  | syntaxError (code : regexp.Error)
  | parseError (msg : Str)
deriving DecidableEq, Repr

/-- The struct `controller`. A nil `re` is `none`; `buf` is the content of
the reusable buffer. -/
structure controller (T : TimePkg) where
  srcLoc : T.Location
  destLoc : T.Location
  format : Str
  re : Option regexp.Regex
  buf : Str
  matchLimit : Int
  debug : Bool

/-- The map `strfmtimeRE` between strftime conversions and regular
expression components, in the order of the source. -/
def strfmtimeRE_entries : List (Nat × Str) :=
  [ ('Y'.toNat, str "\\d{4}"),
    ('m'.toNat, str "\\d{2}"),
    ('b'.toNat, str "[A-Z][a-z]{2}"),
    ('d'.toNat, str "\\d{2}"),
    ('a'.toNat, str "[A-Z][a-z]{2}"),
    ('e'.toNat, str "\\d?\\d"),
    ('H'.toNat, str "\\d{2}"),
    ('M'.toNat, str "\\d{2}"),
    ('I'.toNat, str "\\d{2}"),
    ('p'.toNat, str "[AP]M"),
    ('P'.toNat, str "[ap]m"),
    ('r'.toNat, str "\\d{2}:\\d{2}:\\d{2} [AP]M"),
    ('S'.toNat, str "\\d{2}"),
    ('T'.toNat, str "\\d{2}:\\d{2}:\\d{2}"),
    ('y'.toNat, str "\\d{2}"),
    ('z'.toNat, str "(-|\\+)\\d{4}"),
    ('Z'.toNat, str "[A-Za-z_]+"),
    ('%'.toNat, str "%") ]

/-- The map lookup `val, ok := strfmtimeRE[ch]`. -/
def strfmtimeRE (ch : Nat) : Option Str := strfmtimeRE_entries.lookup ch

/-- The loop of `strfimeToRE` over the bytes `ch := format[i]`, carrying
`regexBuf` and `inPercent`: the final content of `regexBuf`, or the byte
that is not a supported conversion. -/
def strfimeLoop : List Nat → Str → Bool → Except Nat Str
  | [], regexBuf, _ => .ok regexBuf
  | ch :: rest, regexBuf, inPercent =>
    if inPercent then
      match strfmtimeRE ch with
      | none => .error ch
      | some val => strfimeLoop rest (regexBuf ++ val) false
    else if ch = '%'.toNat then strfimeLoop rest regexBuf true
    else strfimeLoop rest (regexBuf ++ [ch]) false

/-- The text that `strfimeToRE` hands to `regexp.Compile`, or the byte
reported as unsupported. -/
def regexSource (format : Str) : Except Nat Str :=
  strfimeLoop (rangeFirstBytes format) [] false

/-- The value of `fmt.Errorf("unsupported conversion char %c", ch)`: the
verb `%c` prints the rune whose code point is the byte `ch`. -/
def unsupportedConversion (ch : Nat) : GoError :=
  .errorf (str "unsupported conversion char " ++ utf8.EncodeRune ch)

/-- The method `strfimeToRE`: builds the regex for a strftime format and
stores the compiled matcher in `c.re`. Returns the controller afterwards and
the error (`none` is nil). Debug output is not modelled. -/
def strfimeToRE {T : TimePkg} (c : controller T) (format : Str) :
    controller T × Option GoError :=
  match regexSource format with
  | .error ch => (c, some (unsupportedConversion ch))
  | .ok regexBuf =>
    match regexp.Compile regexBuf with
    | .ok re => ({ c with re := some re }, none)
    | .error e => ({ c with re := none }, some (.syntaxError e))

/-- The method `replaceTime`: the timestamp `token` of the source zone
rendered in the destination zone, or the token itself and the parse error. -/
def replaceTime {T : TimePkg} (c : controller T) (token : Str) : Str × Option GoError :=
  match T.ParseInLocation c.format token c.srcLoc with
  | .error e => (token, some (.parseError e))
  | .ok source => (T.Format (T.In source c.destLoc) c.format, none)

/-- The bytes of `s` from offset `lo` up to offset `hi`. -/
def sub (s : Str) (lo hi : Nat) : Str := (s.drop lo).take (hi - lo)

/-- The slice expression `s[lo:hi]`; `none` is the run-time panic for
bounds out of range. -/
def slice (s : Str) (lo hi : Nat) : Option Str :=
  if lo ≤ hi ∧ hi ≤ s.length then some (sub s lo hi) else none

/-- How the loop over the matches in `replaceLine` ends. -/
inductive LoopResult where
  | panicked
  | aborted (buf : Str)
  | done (offset : Nat) (buf : Str)
deriving DecidableEq, Repr

/-- The loop `for i, match := range matches` of `replaceLine`, carrying
`offset` and the buffer content. -/
def replaceLoop {T : TimePkg} (c : controller T) (line : Str) :
    List (Nat × Nat) → Nat → Str → LoopResult
  | [], offset, buf => .done offset buf
  | m :: rest, offset, buf =>
    match slice line offset m.1 with
    | none => .panicked
    | some pfx =>
      match slice line m.1 m.2 with
      | none => .panicked
      | some token =>
        match replaceTime c token with
        | (_, some _) => .aborted (buf ++ pfx)
        | (replaced, none) => replaceLoop c line rest m.2 (buf ++ pfx ++ replaced)

/-- The body of `replaceLine` once the matches are located: the returned
string and the controller afterwards; `none` is a run-time panic. -/
def replaceMatches {T : TimePkg} (c : controller T) (line : Str)
    (mtchs : List (Nat × Nat)) : Option (Str × controller T) :=
  match mtchs with
  | [] => some (line, c)
  | _ :: _ =>
    match replaceLoop c line mtchs 0 [] with
    | .panicked => none
    | .aborted buf => some (line, { c with buf := buf })
    | .done offset buf =>
      if offset < line.length then
        match slice line offset line.length with
        | none => none
        | some tail => some (buf ++ tail, { c with buf := buf ++ tail })
      else some (buf, { c with buf := buf })

/-- The method `replaceLine`: the line with the located timestamps
converted. Output to the console is not modelled. -/
def replaceLine {T : TimePkg} (c : controller T) (line : Str) :
    Option (Str × controller T) :=
  match c.re with
  | none => none
  | some re => replaceMatches c line (regexp.FindAllStringIndex re line c.matchLimit)

/-! ## A stand-in for the time package

Concrete lines are rewritten below with a small clock: the only layout is
`15:04` (hours and minutes), a location is a zone at a fixed offset from UTC
in minutes, and an instant is counted in minutes. As in the time package, a
value is parsed with an hour of one or two digits and is formatted with two. -/

/-- The two decimal digits of a number below 100. -/
def twoDigits (n : Nat) : Str := [48 + n / 10 % 10, 48 + n % 10]

/-- The helper `getnum` of the time package: the number written by the one
or two digits at the front of the text and the text after it; exactly two
digits are required if `fixed`. -/
def getnum (s : Str) (fixed : Bool) : Option (Nat × Str) :=
  match s with
  | [] => none
  | [a] => if regexp.isDigit a && !fixed then some (a - 48, []) else none
  | a :: b :: t =>
    if regexp.isDigit a then
      if regexp.isDigit b then some ((a - 48) * 10 + (b - 48), t)
      else if fixed then none
      else some (a - 48, b :: t)
    else none

/-- Parsing under the layout `15:04` in the clock stand-in: an hour of one or
two digits below 24, a colon, a minute of two digits below 60, and nothing
after it. -/
def clockParse (value : Str) (loc : Int) : Except Str (Int × Int) :=
  match getnum value false with
  | none => .error (str "cannot parse")
  | some (hour, v1) =>
    if 24 ≤ hour then .error (str "out of range")
    else
      match v1 with
      | 58 :: v2 =>
        match getnum v2 true with
        | none => .error (str "cannot parse")
        | some (min, v3) =>
          if 60 ≤ min then .error (str "out of range")
          else if v3 ≠ [] then .error (str "extra text")
          else .ok (((hour * 60 + min : Nat) : Int) - loc, loc)
      | _ => .error (str "cannot parse")

/-- Formatting as `HH:MM` in the clock stand-in. -/
def clockFormat (t : Int × Int) : Str :=
  twoDigits (((t.1 + t.2) % 1440).toNat / 60) ++ [58] ++ twoDigits (((t.1 + t.2) % 1440).toNat % 60)

/-- The clock stand-in as a time package. -/
def clockPkg : TimePkg where
  Time := Int × Int
  Location := Int
  ParseInLocation := fun _ value loc => clockParse value loc
  In := fun t loc => (t.1, loc)
  Format := fun t _ => clockFormat t

/-- A controller of the clock stand-in converting from UTC to eight hours
behind, before any format is compiled. -/
def clockController : controller clockPkg :=
  { srcLoc := (0 : Int), destLoc := (-480 : Int), format := str "15:04", re := none,
    buf := [], matchLimit := -1, debug := false }

/-- The clock controller after `strfimeToRE` on the format `%H:%M`. -/
def kitchen : controller clockPkg := (strfimeToRE clockController (str "%H:%M")).1

/-- The same controller in first-only mode (`matchLimit = 1`). -/
def kitchenFirst : controller clockPkg := { kitchen with matchLimit := 1 }

/-- Whether `strfimeToRE` succeeds on a format: every conversion is in the
table and the assembled regex source compiles. -/
def formatCompiles (format : Str) : Bool :=
  match regexSource format with
  | .error _ => false
  | .ok src =>
    match regexp.Compile src with
    | .error _ => false
    | .ok _ => true

/-- The formats of the rows of `TestReplace`. -/
def testFormats : List Str :=
  [ str "%H:%M%p",
    str "%Y-%m-%dT%H:%M:%S",
    str "%b %e %H:%M:%S",
    str "%b %e %H:%M:%S",
    str "%b %e %H:%M:%S",
    str "%a, %d %b %Y %H:%M:%S %z" ]

/-! ## Notions of the specification -/

/-- Well-formed match spans of a text of length `len`, from `offset` on:
every span has `start ≤ end ≤ len` and starts at or after the end of the
span before it (at or after `offset` for the first). -/
def spansFrom (len : Nat) : Nat → List (Nat × Nat) → Bool
  | _, [] => true
  | offset, m :: rest =>
    decide (offset ≤ m.1) && decide (m.1 ≤ m.2) && decide (m.2 ≤ len) && spansFrom len m.2 rest

/-- The rewritten line of the specification: the gap before each span copied
verbatim, each span replaced by its replacement text, and the trailing gap
after the last span, in increasing offset order. -/
def rewrittenLine (line : Str) : Nat → List (Nat × Nat) → List Str → Str
  | offset, m :: ms, r :: rs => sub line offset m.1 ++ r ++ rewrittenLine line m.2 ms rs
  | offset, _, _ => line.drop offset

/-- A token of a format specification: a literal character (given by its
first byte) or a directive (given by the byte after the `%`). -/
inductive Token where
  | literal (ch : Nat)
  | directive (ch : Nat)
deriving DecidableEq, Repr

/-- The bytes a token contributes to the sequence `format[i]` that the
compiler reads. -/
def Token.render : Token → List Nat
  | .literal ch => [ch]
  | .directive ch => ['%'.toNat, ch]

/-- A literal token is any byte but `%`; a directive token is one of the 18
conversions of the table. -/
def Token.valid : Token → Bool
  | .literal ch => ch ≠ '%'.toNat
  | .directive ch => (strfmtimeRE ch).isSome

/-- The piece of regex source for a token: the table fragment of a
directive, the byte itself for a literal. -/
def Token.piece : Token → Str
  | .literal ch => [ch]
  | .directive ch => (strfmtimeRE ch).getD []

/-- Whether a string holds two consecutive ASCII digits. -/
def hasDigitPair : Str → Bool
  | a :: b :: t => (regexp.isDigit a && regexp.isDigit b) || hasDigitPair (b :: t)
  | _ => false

/-- The expression that the fragment `\d{2}` parses to. -/
def twoDigitsRe : regexp.Regex :=
  .rep true 2 (some 2) (.charClass false [⟨false, [(48, 57)]⟩])

/-- For each conversion character of the table, in the order of the table:
a string in which the matcher compiled from `%X` finds a match, and a
malformed string in which it finds none. -/
def directiveExamples : List (Nat × Str × Str) :=
  [ ('Y'.toNat, str "2002", str "202"),
    ('m'.toNat, str "10", str "1"),
    ('b'.toNat, str "Dec", str "dec"),
    ('d'.toNat, str "02", str "2"),
    ('a'.toNat, str "Mon", str "mon"),
    ('e'.toNat, str "5", str "x"),
    ('H'.toNat, str "07", str "7"),
    ('M'.toNat, str "52", str "5"),
    ('I'.toNat, str "07", str "7"),
    ('p'.toNat, str "PM", str "pm"),
    ('P'.toNat, str "pm", str "PM"),
    ('r'.toNat, str "07:52:10 PM", str "07:52:10"),
    ('S'.toNat, str "10", str "1"),
    ('T'.toNat, str "07:52:10", str "07:52"),
    ('y'.toNat, str "02", str "2"),
    ('z'.toNat, str "-0700", str "0700"),
    ('Z'.toNat, str "UTC", str "123"),
    ('%'.toNat, str "%", str "a") ]

/-- Whether the matcher compiled from the format `%X` of an example finds a
match in its first string and none in its second. -/
def exampleHolds (ex : Nat × Str × Str) : Bool :=
  match regexSource ['%'.toNat, ex.1] with
  | .error _ => false
  | .ok src =>
    match regexp.Compile src with
    | .error _ => false
    | .ok re =>
      decide (regexp.FindAllStringIndex re ex.2.1 (-1) ≠ [])
        && decide (regexp.FindAllStringIndex re ex.2.2 (-1) = [])

deriving instance DecidableEq for Except

/-! ## Properties of the library models -/

theorem utf8.DecodeRune_width_pos (b : Nat) (t : Str) :
    1 ≤ (utf8.DecodeRune (b :: t)).2 := by
  simp only [utf8.DecodeRune]
  split_ifs <;> (try split) <;> (try split_ifs) <;> simp

theorem utf8.DecodeRune_width_le (s : Str) :
    (utf8.DecodeRune s).2 ≤ s.length := by
  cases s with
  | nil => simp [utf8.DecodeRune]
  | cons b t =>
    simp only [utf8.DecodeRune]
    split_ifs <;> (try split) <;> (try split_ifs) <;> simp

namespace regexp

/-- The cursor `q1` lies at or after `q` in the same text. -/
def Adv (q q1 : Cursor) : Prop :=
  q.pos ≤ q1.pos ∧ q1.pos + q1.rest.length = q.pos + q.rest.length

theorem Adv.refl (q : Cursor) : Adv q q := ⟨Nat.le_refl _, rfl⟩

theorem Adv.trans {a b c : Cursor} (h1 : Adv a b) (h2 : Adv b c) : Adv a c :=
  ⟨Nat.le_trans h1.1 h2.1, h2.2.trans h1.2⟩

/-- A matcher only ever continues at cursors at or after its start. -/
def Sound (m : Matcher) : Prop :=
  ∀ (k : Cont) (q : Cursor) (e : Nat), m k q = some e → ∃ q1, Adv q q1 ∧ k q1 = some e

theorem orElse_some {a b : Option Nat} {e : Nat} (h : orElse a b = some e) :
    a = some e ∨ b = some e := by
  unfold orElse at h
  cases a with
  | none => exact Or.inr h
  | some x => exact Or.inl h

theorem advance_adv (pos b : Nat) (t : Str) :
    Adv ⟨pos, b :: t⟩
      ⟨pos + (utf8.DecodeRune (b :: t)).2, t.drop ((utf8.DecodeRune (b :: t)).2 - 1)⟩ := by
  have h1 := utf8.DecodeRune_width_pos b t
  have h2 := utf8.DecodeRune_width_le (b :: t)
  simp only [List.length_cons] at h2
  refine ⟨Nat.le_add_right _ _, ?_⟩
  simp only [List.length_drop, List.length_cons]
  omega

theorem stepIf_sound (ok : Nat → Bool) : Sound (stepIf ok) := by
  intro k q e h
  obtain ⟨pos, rest⟩ := q
  cases rest with
  | nil => simp [stepIf] at h
  | cons b t =>
    simp only [stepIf] at h
    split_ifs at h
    exact ⟨_, advance_adv pos b t, h⟩

theorem loop_sound {body : Matcher} (hb : Sound body) (greedy : Bool) (k : Cont) :
    ∀ (n : Nat) (q : Cursor) (e : Nat), loop body greedy k n q = some e →
      ∃ q1, Adv q q1 ∧ k q1 = some e := by
  intro n
  induction n with
  | zero => intro q e h; simp [loop] at h
  | succ n ih =>
    intro q e h
    have key : ∀ e, body (fun q1 => if q1.pos = q.pos then none
        else loop body greedy k n q1) q = some e → ∃ q1, Adv q q1 ∧ k q1 = some e := by
      intro e hbody
      obtain ⟨q1, ha, hk⟩ := hb _ _ _ hbody
      split_ifs at hk
      obtain ⟨q2, ha2, hk2⟩ := ih q1 e hk
      exact ⟨q2, ha.trans ha2, hk2⟩
    simp only [loop] at h
    split_ifs at h
    · rcases orElse_some h with h | h
      · exact key e h
      · exact ⟨q, Adv.refl q, h⟩
    · rcases orElse_some h with h | h
      · exact ⟨q, Adv.refl q, h⟩
      · exact key e h

theorem mPlus_sound {body : Matcher} (hb : Sound body) (greedy : Bool) :
    Sound (mPlus greedy body) := by
  intro k q e h
  obtain ⟨q1, ha, hk⟩ := hb _ _ _ h
  split_ifs at hk
  · exact ⟨q1, ha, hk⟩
  · obtain ⟨q2, ha2, hk2⟩ := loop_sound hb greedy k _ q1 e hk
    exact ⟨q2, ha.trans ha2, hk2⟩

theorem mQuest_sound {body : Matcher} (hb : Sound body) (greedy : Bool) :
    Sound (mQuest greedy body) := by
  intro k q e h
  simp only [mQuest] at h
  split_ifs at h
  · rcases orElse_some h with h | h
    · exact hb _ _ _ h
    · exact ⟨q, Adv.refl q, h⟩
  · rcases orElse_some h with h | h
    · exact ⟨q, Adv.refl q, h⟩
    · exact hb _ _ _ h

theorem mStar_sound {body : Matcher} (hb : Sound body) (greedy nb : Bool) :
    Sound (mStar greedy nb body) := by
  unfold mStar
  split_ifs
  · exact mQuest_sound (mPlus_sound hb greedy) greedy
  · intro k q e h
    exact loop_sound hb greedy k _ q e h

theorem mPow_sound {body : Matcher} (hb : Sound body) : ∀ n, Sound (mPow body n) := by
  intro n
  induction n with
  | zero => intro k q e h; exact ⟨q, Adv.refl q, h⟩
  | succ n ih =>
    intro k q e h
    simp only [mPow] at h
    obtain ⟨q1, ha, hk⟩ := hb _ _ _ h
    obtain ⟨q2, ha2, hk2⟩ := ih _ _ _ hk
    exact ⟨q2, ha.trans ha2, hk2⟩

theorem mOptNest_sound {body : Matcher} (hb : Sound body) (greedy : Bool) :
    ∀ j, Sound (mOptNest greedy body j) := by
  intro j
  induction j with
  | zero => intro k q e h; exact ⟨q, Adv.refl q, h⟩
  | succ j ih =>
    simp only [mOptNest]
    apply mQuest_sound
    intro k q e h
    obtain ⟨q1, ha, hk⟩ := hb _ _ _ h
    obtain ⟨q2, ha2, hk2⟩ := ih _ _ _ hk
    exact ⟨q2, ha.trans ha2, hk2⟩

theorem mRep_sound {body : Matcher} (hb : Sound body) (greedy nb : Bool) (mn : Nat)
    (mx : Option Nat) : Sound (mRep greedy nb mn mx body) := by
  unfold mRep
  cases mx with
  | none =>
    simp only
    split_ifs
    · exact mStar_sound hb greedy nb
    · intro k q e h
      obtain ⟨q1, ha, hk⟩ := mPow_sound hb _ _ _ _ h
      obtain ⟨q2, ha2, hk2⟩ := mPlus_sound hb greedy _ _ _ hk
      exact ⟨q2, ha.trans ha2, hk2⟩
  | some m =>
    simp only
    split_ifs
    · intro k q e h; simp at h
    · intro k q e h
      obtain ⟨q1, ha, hk⟩ := mPow_sound hb _ _ _ _ h
      obtain ⟨q2, ha2, hk2⟩ := mOptNest_sound hb greedy _ _ _ _ hk
      exact ⟨q2, ha.trans ha2, hk2⟩

theorem matchAt_sound : ∀ re : Regex, Sound (matchAt re) := by
  intro re
  induction re with
  | emptyMatch => intro k q e h; exact ⟨q, Adv.refl q, h⟩
  | literal r => exact stepIf_sound _
  | charClass neg items => exact stepIf_sound _
  | anyCharNotNL => exact stepIf_sound _
  | beginText =>
    intro k q e h
    simp only [matchAt] at h
    split_ifs at h
    exact ⟨q, Adv.refl q, h⟩
  | endText =>
    intro k q e h
    simp only [matchAt] at h
    split_ifs at h
    exact ⟨q, Adv.refl q, h⟩
  | capture sub ih => exact ih
  | star greedy sub ih => exact mStar_sound ih greedy _
  | plus greedy sub ih => exact mPlus_sound ih greedy
  | quest greedy sub ih => exact mQuest_sound ih greedy
  | rep greedy mn mx sub ih => exact mRep_sound ih greedy _ mn mx
  | concat a b iha ihb =>
    intro k q e h
    simp only [matchAt] at h
    obtain ⟨q1, ha, hk⟩ := iha _ _ _ h
    obtain ⟨q2, ha2, hk2⟩ := ihb _ _ _ hk
    exact ⟨q2, ha.trans ha2, hk2⟩
  | alternate a b iha ihb =>
    intro k q e h
    simp only [matchAt] at h
    rcases orElse_some h with h | h
    · exact iha _ _ _ h
    · exact ihb _ _ _ h

theorem search_bounds (re : Regex) :
    ∀ (n : Nat) (q : Cursor) (b e : Nat), search re n q = some (b, e) →
      q.pos ≤ b ∧ b ≤ e ∧ e ≤ q.pos + q.rest.length := by
  intro n
  induction n with
  | zero => intro q b e h; simp [search] at h
  | succ n ih =>
    intro q b e h
    simp only [search] at h
    split at h
    · rename_i e1 hm
      obtain ⟨q1, ha, hk⟩ := matchAt_sound re _ _ _ hm
      simp only [Option.some.injEq, Prod.mk.injEq] at h hk
      obtain ⟨rfl, rfl⟩ := h
      have h1 := ha.1
      have h2 := ha.2
      omega
    · split at h
      · simp at h
      · rename_i b0 t hrest
        have hadv := advance_adv q.pos b0 t
        have := ih _ b e h
        have h1 := hadv.1
        have h2 := hadv.2
        simp only [List.length_cons] at h2 this
        rw [hrest]
        simp only [List.length_cons]
        omega

theorem spansFrom_mono (len : Nat) {o1 o2 : Nat} (h : o1 ≤ o2) :
    ∀ ms, spansFrom len o2 ms = true → spansFrom len o1 ms = true := by
  intro ms hms
  cases ms with
  | nil => rfl
  | cons m rest =>
    simp only [spansFrom, Bool.and_eq_true, decide_eq_true_eq] at hms ⊢
    exact ⟨⟨⟨Nat.le_trans h hms.1.1.1, hms.1.1.2⟩, hms.1.2⟩, hms.2⟩

theorem allMatches_spans (re : Regex) (s : Str) :
    ∀ (fuel n pos : Nat) (prev : Option Nat),
      spansFrom s.length pos (allMatches re s fuel n pos prev) = true := by
  intro fuel
  induction fuel with
  | zero => intro n pos prev; rfl
  | succ fuel ih =>
    intro n pos prev
    simp only [allMatches]
    split_ifs with hstop
    · rfl
    · have hpos : pos ≤ s.length := by
        by_contra hc
        exact hstop (Or.inr (Nat.lt_of_not_le hc))
      split
      · rfl
      · rename_i b e hs
        have hb := search_bounds re _ _ b e hs
        simp only [List.length_drop] at hb
        have hw := utf8.DecodeRune_width_le (s.drop pos)
        simp only [List.length_drop] at hw
        have hnext : e ≤ nextPos s pos e := by
          unfold nextPos
          split_ifs <;> omega
        split_ifs
        · exact spansFrom_mono _ (by omega) _ (ih _ _ _)
        · simp only [spansFrom, Bool.and_eq_true, decide_eq_true_eq]
          refine ⟨⟨⟨hb.1, hb.2.1⟩, by omega⟩, ?_⟩
          exact spansFrom_mono _ hnext _ (ih _ _ _)

/-- The matcher guarantee: the spans that `FindAllStringIndex` returns lie
within the text, in increasing order and without overlap. -/
theorem FindAllStringIndex_spans (re : Regex) (s : Str) (n : Int) :
    spansFrom s.length 0 (FindAllStringIndex re s n) = true :=
  allMatches_spans re s _ _ _ _

end regexp

theorem utf8.DecodeRune_ascii (b : Nat) (t : Str)
    (h : (utf8.DecodeRune (b :: t)).1 < 128) : (utf8.DecodeRune (b :: t)).1 = b := by
  simp only [utf8.DecodeRune] at h ⊢
  split_ifs at h ⊢ <;> (try split at h) <;> (try split_ifs at h) <;>
    simp_all [utf8.RuneError, utf8.isCont, utf8.acceptLo, utf8.acceptHi] <;>
    (try split_ifs at *) <;> omega

theorem utf8.mem_of_decodeAll (r : Nat) (hr : r < 128) :
    ∀ (n : Nat) (s : Str), r ∈ (utf8.decodeAll n s).map Prod.fst → r ∈ s := by
  intro n
  induction n with
  | zero => intro s h; simp [utf8.decodeAll] at h
  | succ n ih =>
    intro s h
    cases s with
    | nil => simp [utf8.decodeAll] at h
    | cons b t =>
      simp only [utf8.decodeAll, List.map_cons, List.mem_cons] at h
      rcases h with h | h
      · have := utf8.DecodeRune_ascii b t (h ▸ hr)
        rw [← h] at this
        exact this ▸ List.mem_cons_self _ _
      · exact List.mem_cons_of_mem _ (List.mem_of_mem_drop (ih _ h))

namespace regexp

theorem parseInt_subset {s rest : List Nat} {n : Nat} (h : parseInt s = some (n, rest)) :
    rest ⊆ s := by
  unfold parseInt at h
  split at h
  · simp at h
  · split_ifs at h
    simp only [Option.some.injEq, Prod.mk.injEq] at h
    rw [← h.2]
    exact (List.dropWhile_suffix _).subset

theorem parseRepeat_subset {s rest : List Nat} {mn : Nat} {mx : Option Nat}
    (h : parseRepeat s = some (mn, mx, rest)) : rest ⊆ s := by
  unfold parseRepeat at h
  split at h
  · rename_i s0
    split at h
    · simp at h
    · rename_i mn1 s1 hint
      have h1 := parseInt_subset hint
      have hs0 : s0 ⊆ 123 :: s0 := List.subset_cons_self _ _
      split at h
      · simp only [Option.some.injEq, Prod.mk.injEq] at h
        rw [← h.2.2]
        intro x hx
        exact hs0 (h1 (List.mem_cons_of_mem _ (List.mem_cons_of_mem _ hx)))
      · split at h
        · simp at h
        · rename_i mx1 s3 hint2
          have h2 := parseInt_subset hint2
          split at h
          · simp only [Option.some.injEq, Prod.mk.injEq] at h
            rw [← h.2.2]
            intro x hx
            exact hs0 (h1 (List.mem_cons_of_mem _ (h2 (List.mem_cons_of_mem _ hx))))
          · simp at h
      · simp only [Option.some.injEq, Prod.mk.injEq] at h
        rw [← h.2.2]
        intro x hx
        exact hs0 (h1 (List.mem_cons_of_mem _ hx))
      · simp at h
  · simp at h

theorem parseEscape_subset {s rest : List Nat} {c : Nat}
    (h : parseEscape s = .ok (c, rest)) : rest ⊆ s := by
  unfold parseEscape at h
  split at h
  · simp at h
  · split_ifs at h
    simp only [Except.ok.injEq, Prod.mk.injEq] at h
    rw [← h.2]
    exact List.subset_cons_self _ _

theorem parseClassChar_subset {s rest : List Nat} {c : Nat}
    (h : parseClassChar s = .ok (c, rest)) : rest ⊆ s := by
  unfold parseClassChar at h
  split at h
  · simp at h
  · exact fun x hx => List.mem_cons_of_mem _ (parseEscape_subset h hx)
  · split_ifs at h
    simp only [Except.ok.injEq, Prod.mk.injEq] at h
    rw [← h.2]
    exact List.subset_cons_self _ _

theorem parseClassLoop_subset : ∀ (n : Nat) (t : List Nat) (first : Bool)
    (acc items : List ClassItem) (rest : List Nat),
    parseClassLoop n t first acc = .ok (items, rest) → rest ⊆ t := by
  intro n
  induction n with
  | zero => intro t first acc items rest h; simp [parseClassLoop] at h
  | succ n ih =>
    intro t first acc items rest h
    simp only [parseClassLoop] at h
    split at h
    · simp only [Except.ok.injEq, Prod.mk.injEq] at h
      rw [← h.2]
      exact List.subset_cons_self _ _
    · simp at h
    · split at h
      · rename_i item rest1 hperl
        have hsub : rest1 ⊆ t := by
          split at hperl
          · simp only [Option.map_eq_some', Prod.mk.injEq] at hperl
            obtain ⟨it, _, _, hrest⟩ := hperl
            rw [← hrest]
            exact fun x hx => List.mem_cons_of_mem _ (List.mem_cons_of_mem _ hx)
          · simp at hperl
        exact fun x hx => hsub (ih _ _ _ _ _ h hx)
      · split at h
        · simp at h
        · rename_i lo t1 hlo
          have h1 := parseClassChar_subset hlo
          split at h
          · rename_i c t2
            split_ifs at h
            · exact fun x hx => h1 (ih _ _ _ _ _ h hx)
            · split at h
              · simp at h
              · rename_i hi t3 hhi
                have h3 := parseClassChar_subset hhi
                split_ifs at h
                exact fun x hx =>
                  h1 (List.mem_cons_of_mem _ (h3 (ih _ _ _ _ _ h hx)))
          · exact fun x hx => h1 (ih _ _ _ _ _ h hx)

theorem parseClass_spec {t rest : List Nat} {re : Regex}
    (h : parseClass t = .ok (re, rest)) : rest ⊆ t ∧ NumSubexp re = 0 := by
  unfold parseClass at h
  split at h
  · split at h
    · simp at h
    · rename_i items rest1 hl
      simp only [Except.ok.injEq, Prod.mk.injEq] at h
      rw [← h.1, ← h.2]
      exact ⟨fun x hx => List.mem_cons_of_mem _ (parseClassLoop_subset _ _ _ _ _ _ hl hx), rfl⟩
  · split at h
    · simp at h
    · rename_i items rest1 hl
      simp only [Except.ok.injEq, Prod.mk.injEq] at h
      rw [← h.1, ← h.2]
      exact ⟨parseClassLoop_subset _ _ _ _ _ _ hl, rfl⟩

theorem NumSubexp_concatList : ∀ rs : List Regex, (∀ r ∈ rs, NumSubexp r = 0) →
    NumSubexp (concatList rs) = 0 := by
  intro rs
  induction rs with
  | nil => intro _; rfl
  | cons r rest ih =>
    intro h
    cases rest with
    | nil => exact h r (List.mem_cons_self _ _)
    | cons r2 rest2 =>
      simp only [concatList, NumSubexp]
      rw [h r (List.mem_cons_self _ _), ih (fun x hx => h x (List.mem_cons_of_mem _ hx))]

theorem NumSubexp_alternateList : ∀ rs : List Regex, (∀ r ∈ rs, NumSubexp r = 0) →
    NumSubexp (alternateList rs) = 0 := by
  intro rs
  induction rs with
  | nil => intro _; rfl
  | cons r rest ih =>
    intro h
    cases rest with
    | nil => exact h r (List.mem_cons_self _ _)
    | cons r2 rest2 =>
      simp only [alternateList, NumSubexp]
      rw [h r (List.mem_cons_self _ _), ih (fun x hx => h x (List.mem_cons_of_mem _ hx))]

theorem NumSubexp_collapse {alts cur : List Regex} (ha : ∀ r ∈ alts, NumSubexp r = 0)
    (hc : ∀ r ∈ cur, NumSubexp r = 0) : NumSubexp (collapse alts cur) = 0 := by
  unfold collapse
  apply NumSubexp_alternateList
  intro r hr
  simp only [List.reverse_cons, List.mem_append, List.mem_reverse, List.mem_singleton] at hr
  rcases hr with hr | rfl
  · exact ha r hr
  · exact NumSubexp_concatList _ (fun x hx => hc x (List.mem_reverse.mp hx))

theorem NumSubexp_apply (op : RepOp) (greedy : Bool) (sub : Regex) :
    NumSubexp (op.apply greedy sub) = NumSubexp sub := by
  cases op <;> rfl

end regexp

namespace regexp

theorem NumSubexp_cons {r : Regex} {cur : List Regex} (h0 : NumSubexp r = 0)
    (hc : ∀ x ∈ cur, NumSubexp x = 0) : ∀ x ∈ r :: cur, NumSubexp x = 0 := by
  intro x hx
  rcases List.mem_cons.mp hx with rfl | hx
  · exact h0
  · exact hc x hx

theorem not_mem_lazy_tail {after : List Nat} (h : 40 ∉ after) :
    40 ∉ (match after with
      | 63 :: a => a
      | _ => after) := by
  split
  · exact fun hx => h (List.mem_cons_of_mem _ hx)
  · exact h

/-- A source text without an opening parenthesis parses to an expression
without capturing groups. -/
theorem parseItems_NumSubexp : ∀ (n : Nat) (t : List Nat) (alts cur : List Regex)
    (lastRep inGroup : Bool) (re : Regex) (rest : List Nat),
    parseItems n t alts cur lastRep inGroup = .ok (re, rest) → 40 ∉ t →
    (∀ r ∈ alts, NumSubexp r = 0) → (∀ r ∈ cur, NumSubexp r = 0) → NumSubexp re = 0 := by
  intro n
  induction n with
  | zero => intro t alts cur lastRep inGroup re rest h; simp [parseItems] at h
  | succ n ih =>
    intro t alts cur lastRep inGroup re rest h ht ha hc
    simp only [parseItems] at h
    split at h
    · split_ifs at h
      simp only [Except.ok.injEq, Prod.mk.injEq] at h
      rw [← h.1]
      exact NumSubexp_collapse ha hc
    · simp at ht
    · simp at ht
    · simp at ht
    · refine ih _ _ _ _ _ _ _ h (fun hx => ht (List.mem_cons_of_mem _ hx)) ?_ (by simp)
      exact NumSubexp_cons (NumSubexp_concatList _ (fun x hx => hc x (List.mem_reverse.mp hx))) ha
    · split_ifs at h
      simp only [Except.ok.injEq, Prod.mk.injEq] at h
      rw [← h.1]
      exact NumSubexp_collapse ha hc
    · exact ih _ _ _ _ _ _ _ h (fun hx => ht (List.mem_cons_of_mem _ hx)) ha
        (NumSubexp_cons rfl hc)
    · exact ih _ _ _ _ _ _ _ h (fun hx => ht (List.mem_cons_of_mem _ hx)) ha
        (NumSubexp_cons rfl hc)
    · exact ih _ _ _ _ _ _ _ h (fun hx => ht (List.mem_cons_of_mem _ hx)) ha
        (NumSubexp_cons rfl hc)
    · split at h
      · simp at h
      · rename_i cls rest1 hcls
        obtain ⟨hsub, hzero⟩ := parseClass_spec hcls
        exact ih _ _ _ _ _ _ _ h (fun hx => ht (List.mem_cons_of_mem _ (hsub hx))) ha
          (NumSubexp_cons hzero hc)
    · split_ifs at h
      split at h
      · simp at h
      · split_ifs at h
        exact ih _ _ _ _ _ _ _ h
          (not_mem_lazy_tail (fun hx => ht (List.mem_cons_of_mem _ hx))) ha
          (NumSubexp_cons ((NumSubexp_apply _ _ _).trans (hc _ (List.mem_cons_self _ _)))
            (fun x hx => hc x (List.mem_cons_of_mem _ hx)))
    · split_ifs at h
      split at h
      · simp at h
      · split_ifs at h
        exact ih _ _ _ _ _ _ _ h
          (not_mem_lazy_tail (fun hx => ht (List.mem_cons_of_mem _ hx))) ha
          (NumSubexp_cons ((NumSubexp_apply _ _ _).trans (hc _ (List.mem_cons_self _ _)))
            (fun x hx => hc x (List.mem_cons_of_mem _ hx)))
    · split_ifs at h
      split at h
      · simp at h
      · split_ifs at h
        exact ih _ _ _ _ _ _ _ h
          (not_mem_lazy_tail (fun hx => ht (List.mem_cons_of_mem _ hx))) ha
          (NumSubexp_cons ((NumSubexp_apply _ _ _).trans (hc _ (List.mem_cons_self _ _)))
            (fun x hx => hc x (List.mem_cons_of_mem _ hx)))
    · split at h
      · exact ih _ _ _ _ _ _ _ h (fun hx => ht (List.mem_cons_of_mem _ hx)) ha
          (NumSubexp_cons rfl hc)
      · rename_i mn mx after hrep
        have hafter : 40 ∉ after := fun hx => ht (parseRepeat_subset hrep hx)
        split_ifs at h
        split at h
        · simp at h
        · split_ifs at h
          exact ih _ _ _ _ _ _ _ h (not_mem_lazy_tail hafter) ha
            (NumSubexp_cons ((NumSubexp_apply _ _ _).trans (hc _ (List.mem_cons_self _ _)))
              (fun x hx => hc x (List.mem_cons_of_mem _ hx)))
    · split at h
      · rename_i item rest1 hperl
        have hsub : 40 ∉ rest1 := by
          split at hperl
          · simp only [Option.map_eq_some', Prod.mk.injEq] at hperl
            obtain ⟨it, _, _, hrest⟩ := hperl
            rw [← hrest]
            exact fun hx => ht (List.mem_cons_of_mem _ (List.mem_cons_of_mem _ hx))
          · simp at hperl
        exact ih _ _ _ _ _ _ _ h hsub ha (NumSubexp_cons rfl hc)
      · split at h
        · simp at h
        · rename_i c rest1 hesc
          exact ih _ _ _ _ _ _ _ h
            (fun hx => ht (List.mem_cons_of_mem _ (parseEscape_subset hesc hx))) ha
            (NumSubexp_cons rfl hc)
    · split_ifs at h
      exact ih _ _ _ _ _ _ _ h (fun hx => ht (List.mem_cons_of_mem _ hx)) ha
        (NumSubexp_cons rfl hc)

/-- A regex source without the byte `(` compiles to a matcher without
capturing groups. -/
theorem Compile_NumSubexp (src : Str) (re : Regex) (h : Compile src = .ok re)
    (hno : 40 ∉ src) : NumSubexp re = 0 := by
  unfold Compile at h
  split_ifs at h
  split at h
  · simp at h
  · rename_i re1 rest hp
    simp only [Except.ok.injEq] at h
    subst h
    refine parseItems_NumSubexp _ _ _ _ _ _ _ _ hp (fun hx => hno ?_) (by simp) (by simp)
    apply utf8.mem_of_decodeAll 40 (by decide) src.length src
    simp only [runesOf, List.mem_map] at hx ⊢
    obtain ⟨d, hd, hval⟩ := hx
    refine ⟨d, hd, ?_⟩
    split_ifs at hval
    · exact absurd hval (by decide)
    · exact hval

end regexp

namespace regexp

theorem allMatches_take (re : Regex) (s : Str) :
    ∀ (fuel n N pos : Nat) (prev : Option Nat), n ≤ N →
      allMatches re s fuel n pos prev = (allMatches re s fuel N pos prev).take n := by
  intro fuel
  induction fuel with
  | zero => intro n N pos prev _; simp [allMatches]
  | succ fuel ih =>
    intro n N pos prev hn
    by_cases h0 : n = 0
    · subst h0; simp [allMatches]
    · by_cases hp : s.length < pos
      · simp [allMatches, hp]
      · have hN : N ≠ 0 := by omega
        simp only [allMatches, h0, hN, hp, or_self, if_false]
        split
        · simp
        · split_ifs
          · exact ih _ _ _ _ hn
          · obtain ⟨n1, rfl⟩ : ∃ n1, n = n1 + 1 := ⟨n - 1, by omega⟩
            rw [List.take_succ_cons, Nat.add_sub_cancel]
            congr 1
            exact ih _ _ _ _ (by omega)

/-- With the limit 1 the matcher returns the first of the spans it returns
without a limit. -/
theorem FindAllStringIndex_first (re : Regex) (s : Str) :
    FindAllStringIndex re s 1 = (FindAllStringIndex re s (-1)).take 1 := by
  unfold FindAllStringIndex
  simp only [show ¬ ((1 : Int) < 0) by decide, show ((-1 : Int) < 0) by decide, if_true,
    if_false]
  exact allMatches_take re s _ _ _ _ _ (by simp)

end regexp

/-! ## Properties of the line rewriter -/

theorem slice_of_le {s : Str} {lo hi : Nat} (h1 : lo ≤ hi) (h2 : hi ≤ s.length) :
    slice s lo hi = some (sub s lo hi) := by
  simp [slice, h1, h2]

theorem sub_to_end (s : Str) (lo : Nat) : sub s lo s.length = s.drop lo := by
  unfold sub
  rw [← List.length_drop]
  exact List.take_length _

theorem sub_from_zero (s : Str) (hi : Nat) : sub s 0 hi = s.take hi := by
  simp [sub]

/-- When every located token parses, the loop of `replaceLine` runs to the
end and has assembled the gaps and replacements up to the last span. -/
theorem replaceLoop_done {T : TimePkg} (c : controller T) (line : Str) :
    ∀ (ms : List (Nat × Nat)) (rs : List Str) (offset : Nat) (buf : Str),
      offset ≤ line.length → spansFrom line.length offset ms = true →
      List.Forall₂ (fun m r => replaceTime c (sub line m.1 m.2) = (r, none)) ms rs →
      ∃ off1 buf1, replaceLoop c line ms offset buf = .done off1 buf1 ∧
        off1 ≤ line.length ∧
        buf1 ++ line.drop off1 = buf ++ rewrittenLine line offset ms rs := by
  intro ms
  induction ms with
  | nil =>
    intro rs offset buf ho _ hp
    cases hp
    exact ⟨offset, buf, rfl, ho, rfl⟩
  | cons m rest ih =>
    intro rs offset buf ho hs hp
    cases hp with
    | cons hm hrest =>
      rename_i r rs1
      simp only [spansFrom, Bool.and_eq_true, decide_eq_true_eq] at hs
      obtain ⟨⟨⟨h1, h2⟩, h3⟩, h4⟩ := hs
      obtain ⟨off1, buf1, hl, hle, heq⟩ := ih rs1 m.2 (buf ++ sub line offset m.1 ++ r) h3 h4 hrest
      refine ⟨off1, buf1, ?_, hle, ?_⟩
      · simp only [replaceLoop, slice_of_le h1 (Nat.le_trans h2 h3), slice_of_le h2 h3, hm]
        exact hl
      · rw [heq]
        simp [rewrittenLine, List.append_assoc]

/-- When some located token does not parse, the loop of `replaceLine` stops
at a parse error. -/
theorem replaceLoop_aborted {T : TimePkg} (c : controller T) (line : Str) :
    ∀ (ms : List (Nat × Nat)) (offset : Nat) (buf : Str),
      spansFrom line.length offset ms = true →
      (∃ m ∈ ms, (replaceTime c (sub line m.1 m.2)).2 ≠ none) →
      ∃ buf1, replaceLoop c line ms offset buf = .aborted buf1 := by
  intro ms
  induction ms with
  | nil => intro offset buf _ h; simp at h
  | cons m rest ih =>
    intro offset buf hs hbad
    simp only [spansFrom, Bool.and_eq_true, decide_eq_true_eq] at hs
    obtain ⟨⟨⟨h1, h2⟩, h3⟩, h4⟩ := hs
    simp only [replaceLoop, slice_of_le h1 (Nat.le_trans h2 h3), slice_of_le h2 h3]
    rcases hr : replaceTime c (sub line m.1 m.2) with ⟨r, err⟩
    cases err with
    | some e => exact ⟨_, rfl⟩
    | none =>
      simp only
      apply ih _ _ h4
      obtain ⟨m1, hmem, hne⟩ := hbad
      rcases List.mem_cons.mp hmem with rfl | hmem
      · rw [hr] at hne; exact absurd rfl hne
      · exact ⟨m1, hmem, hne⟩

/-- The string that `replaceMatches` returns when every token parses. -/
theorem replaceMatches_done {T : TimePkg} (c : controller T) (line : Str)
    (ms : List (Nat × Nat)) (rs : List Str) (hne : ms ≠ [])
    (hs : spansFrom line.length 0 ms = true)
    (hp : List.Forall₂ (fun m r => replaceTime c (sub line m.1 m.2) = (r, none)) ms rs) :
    (replaceMatches c line ms).map Prod.fst = some (rewrittenLine line 0 ms rs) := by
  obtain ⟨off1, buf1, hl, hle, heq⟩ := replaceLoop_done c line ms rs 0 [] (Nat.zero_le _) hs hp
  cases ms with
  | nil => exact absurd rfl hne
  | cons m rest =>
    simp only [replaceMatches, hl]
    simp only [List.nil_append] at heq
    split_ifs with hlt
    · rw [slice_of_le hle (Nat.le_refl _), sub_to_end]
      simp [heq]
    · have : line.drop off1 = [] := List.drop_eq_nil_of_le (by omega)
      rw [this, List.append_nil] at heq
      simp [heq]

/-- The string that `replaceMatches` returns when some token does not parse. -/
theorem replaceMatches_aborted {T : TimePkg} (c : controller T) (line : Str)
    (ms : List (Nat × Nat)) (hs : spansFrom line.length 0 ms = true)
    (hbad : ∃ m ∈ ms, (replaceTime c (sub line m.1 m.2)).2 ≠ none) :
    (replaceMatches c line ms).map Prod.fst = some line := by
  obtain ⟨buf1, hl⟩ := replaceLoop_aborted c line ms 0 [] hs hbad
  cases ms with
  | nil => simp at hbad
  | cons m rest => simp [replaceMatches, hl]

/-! ## Properties of the pattern compiler -/

theorem strfimeLoop_token (t : Token) (ht : t.valid = true) (rest : List Nat) (buf : Str) :
    strfimeLoop (t.render ++ rest) buf false = strfimeLoop rest (buf ++ t.piece) false := by
  cases t with
  | literal ch =>
    have hne : ch ≠ 37 := by simpa [Token.valid] using ht
    simp [Token.render, Token.piece, strfimeLoop, hne]
  | directive ch =>
    obtain ⟨val, hval⟩ : ∃ val, strfmtimeRE ch = some val :=
      Option.isSome_iff_exists.mp (by simpa [Token.valid] using ht)
    simp [Token.render, Token.piece, strfimeLoop, hval]

/-- The loop of `strfimeToRE` consumes a run of valid tokens and appends
their pieces to the buffer. -/
theorem strfimeLoop_tokens : ∀ (toks : List Token), (∀ t ∈ toks, t.valid = true) →
    ∀ (rest : List Nat) (buf : Str),
      strfimeLoop (toks.flatMap Token.render ++ rest) buf false
        = strfimeLoop rest (buf ++ toks.flatMap Token.piece) false := by
  intro toks
  induction toks with
  | nil => intro _ rest buf; simp
  | cons t ts ih =>
    intro hv rest buf
    have ht := hv t (List.mem_cons_self _ _)
    have hts : ∀ x ∈ ts, x.valid = true := fun x hx => hv x (List.mem_cons_of_mem _ hx)
    rw [List.flatMap_cons, List.flatMap_cons, List.append_assoc, ← List.append_assoc buf,
      ← ih hts rest (buf ++ t.piece)]
    exact strfimeLoop_token t ht _ buf

/-- The regex source of a format whose bytes `format[i]` form a sequence of
valid tokens is the concatenation of the pieces of the tokens. -/
theorem regexSource_tokens (format : Str) (toks : List Token)
    (hfb : rangeFirstBytes format = toks.flatMap Token.render)
    (hv : ∀ t ∈ toks, t.valid = true) :
    regexSource format = .ok (toks.flatMap Token.piece) := by
  have := strfimeLoop_tokens toks hv [] []
  simp only [List.append_nil, List.nil_append] at this
  rw [regexSource, hfb, this]
  rfl

theorem strfimeToRE_of_source {T : TimePkg} (c : controller T) (format src : Str)
    (h : regexSource format = .ok src) :
    strfimeToRE c format =
      match regexp.Compile src with
      | .ok re => ({ c with re := some re }, none)
      | .error e => ({ c with re := none }, some (.syntaxError e)) := by
  simp only [strfimeToRE, h]

theorem strfimeToRE_of_formatCompiles {T : TimePkg} (c : controller T) (format : Str)
    (h : formatCompiles format = true) :
    (strfimeToRE c format).2 = none ∧ (strfimeToRE c format).1.re.isSome = true := by
  unfold formatCompiles at h
  unfold strfimeToRE
  cases hs : regexSource format with
  | error ch => simp [hs] at h
  | ok src =>
    cases hc : regexp.Compile src with
    | error e => simp [hs, hc] at h
    | ok re => simp [hc]

theorem mem_of_lookup {ch : Nat} {val : Str} : ∀ (l : List (Nat × Str)),
    l.lookup ch = some val → (ch, val) ∈ l := by
  intro l
  induction l with
  | nil => intro h; simp at h
  | cons p rest ih =>
    intro h
    obtain ⟨k, v⟩ := p
    rw [List.lookup_cons] at h
    by_cases hk : ch = k
    · subst hk
      simp only [beq_self_eq_true, Option.some.injEq] at h
      subst h
      exact List.mem_cons_self _ _
    · have : (ch == k) = false := by simpa using hk
      simp only [this] at h
      exact List.mem_cons_of_mem _ (ih h)

/-- Of the table fragments only the one of `%z` holds an opening parenthesis. -/
theorem piece_no_paren (t : Token) (hv : t.valid = true)
    (hz : t ≠ .directive 'z'.toNat) (hp : t ≠ .literal '('.toNat) : 40 ∉ t.piece := by
  cases t with
  | literal ch =>
    simp only [Token.piece, List.mem_singleton]
    intro h
    exact hp (by rw [← h]; rfl)
  | directive ch =>
    obtain ⟨val, hval⟩ : ∃ val, strfmtimeRE ch = some val :=
      Option.isSome_iff_exists.mp (by simpa [Token.valid] using hv)
    have hmem := mem_of_lookup strfmtimeRE_entries hval
    have hall : ∀ p ∈ strfmtimeRE_entries, p.1 ≠ 'z'.toNat → 40 ∉ p.2 := by decide
    simp only [Token.piece, hval, Option.getD_some]
    exact hall _ hmem (fun h => hz (by rw [show ch = 'z'.toNat from h]))

/-! ## The claims about the line rewriter -/

/-- C1. For every line and every compiled matcher, if the matcher finds no
match in the line (`FindAllStringIndex` returns no spans), `replaceLine`
returns exactly the input line (and leaves the controller as it was). -/
theorem replaceLine_no_match {T : TimePkg} (c : controller T) (re : regexp.Regex)
    (line : Str) (hre : c.re = some re)
    (hno : regexp.FindAllStringIndex re line c.matchLimit = []) :
    replaceLine c line = some (line, c) := by
  simp [replaceLine, hre, hno, replaceMatches]

/-- An instance of C1: a line without a timestamp comes back as it is. -/
theorem replaceLine_no_match_witness :
    regexp.FindAllStringIndex (kitchen.re.getD .emptyMatch) (str "no time here")
        kitchen.matchLimit = []
      ∧ (replaceLine kitchen (str "no time here")).map Prod.fst = some (str "no time here") :=
  ⟨by decide!,
   congrArg (Option.map Prod.fst)
     (replaceLine_no_match kitchen (kitchen.re.getD .emptyMatch) (str "no time here")
       (by decide!) (by decide!))⟩

/-- C2. For every line, if at least one of the located match spans holds a
token that fails to parse under the layout in the source zone, `replaceLine`
returns the original line unchanged, wherever the failing span lies and
however many earlier spans were already converted. -/
theorem replaceLine_parse_failure {T : TimePkg} (c : controller T) (re : regexp.Regex)
    (line : Str) (hre : c.re = some re)
    (hbad : ∃ m ∈ regexp.FindAllStringIndex re line c.matchLimit,
      ∃ e, T.ParseInLocation c.format (sub line m.1 m.2) c.srcLoc = .error e) :
    (replaceLine c line).map Prod.fst = some line := by
  simp only [replaceLine, hre]
  obtain ⟨m, hm, e, he⟩ := hbad
  exact replaceMatches_aborted c line _ (regexp.FindAllStringIndex_spans re line _)
    ⟨m, hm, by simp [replaceTime, he]⟩

/-- An instance of C2: the second of two located tokens does not parse, the
first was already converted, and the line comes back unchanged. -/
theorem replaceLine_parse_failure_witness :
    regexp.FindAllStringIndex (kitchen.re.getD .emptyMatch) (str "at 12:00 and 93:15 done")
        kitchen.matchLimit = [(3, 8), (13, 18)]
      ∧ (replaceTime kitchen (str "12:00")) = (str "04:00", none)
      ∧ clockPkg.ParseInLocation kitchen.format (str "93:15") kitchen.srcLoc
          = .error (str "out of range")
      ∧ (replaceLine kitchen (str "at 12:00 and 93:15 done")).map Prod.fst
          = some (str "at 12:00 and 93:15 done") :=
  ⟨by decide!, by decide!, by rfl,
   replaceLine_parse_failure kitchen (kitchen.re.getD .emptyMatch)
     (str "at 12:00 and 93:15 done") (by decide!)
     ⟨(13, 18), by decide!, str "out of range", by rfl⟩⟩

/-- C3. For every line whose located spans `[s1,e1), ..., [sn,en)` (n ≥ 1;
they are in increasing order and do not overlap) all parse successfully,
`replaceLine` returns `line[0:s1] ++ r1 ++ line[e1:s2] ++ r2 ++ ... ++ rn ++
line[en:]`, where `ri` is `replaceTime` of `line[si:ei]`; with exactly one
span `[s,e)` the output is `line[0:s] ++ r ++ line[e:]`. -/
theorem replaceLine_rewrites {T : TimePkg} (c : controller T) (re : regexp.Regex)
    (line : Str) (ms : List (Nat × Nat)) (rs : List Str) (hre : c.re = some re)
    (hm : regexp.FindAllStringIndex re line c.matchLimit = ms) (hne : ms ≠ [])
    (hparse : List.Forall₂ (fun m r => replaceTime c (sub line m.1 m.2) = (r, none)) ms rs) :
    (replaceLine c line).map Prod.fst = some (rewrittenLine line 0 ms rs)
      ∧ (∀ s e r, ms = [(s, e)] → rs = [r] →
          (replaceLine c line).map Prod.fst = some (line.take s ++ r ++ line.drop e)) := by
  have hs : spansFrom line.length 0 ms = true := hm ▸ regexp.FindAllStringIndex_spans re line _
  have key : (replaceLine c line).map Prod.fst = some (rewrittenLine line 0 ms rs) := by
    simp only [replaceLine, hre, hm]
    exact replaceMatches_done c line ms rs hne hs hparse
  refine ⟨key, ?_⟩
  rintro s e r rfl rfl
  rw [key]
  simp [rewrittenLine, sub_from_zero]

/-- An instance of C3: two timestamps are converted and the three gaps are
copied. -/
theorem replaceLine_rewrites_witness :
    (replaceLine kitchen (str "at 12:00 and 03:15 done")).map Prod.fst
      = some (str "at " ++ str "04:00" ++ (str " and " ++ str "19:15" ++ str " done")) :=
  (replaceLine_rewrites kitchen (kitchen.re.getD .emptyMatch) (str "at 12:00 and 03:15 done")
    [(3, 8), (13, 18)] [str "04:00", str "19:15"] (by decide!) (by decide!) (by decide)
    (.cons (by decide!) (.cons (by decide!) .nil))).1.trans (by decide!)

/-- C4. With the match limit set to first-only (`matchLimit = 1`), for every
line that contains two or more non-overlapping matches and whose leftmost
match `[s,e)` parses, `replaceLine` returns
`line[0:s] ++ replaceTime(line[s:e]) ++ line[e:]`: only the leftmost match is
replaced and every later occurrence keeps its literal text, even when a
later occurrence would not parse. -/
theorem replaceLine_first_only {T : TimePkg} (c : controller T) (re : regexp.Regex)
    (line : Str) (s e : Nat) (m2 : Nat × Nat) (more : List (Nat × Nat)) (r : Str)
    (hre : c.re = some re) (hlim : c.matchLimit = 1)
    (hall : regexp.FindAllStringIndex re line (-1) = (s, e) :: m2 :: more)
    (hparse : replaceTime c (sub line s e) = (r, none)) :
    (replaceLine c line).map Prod.fst = some (line.take s ++ r ++ line.drop e) := by
  have hfirst : regexp.FindAllStringIndex re line c.matchLimit = [(s, e)] := by
    rw [hlim, regexp.FindAllStringIndex_first, hall]
    rfl
  have hs : spansFrom line.length 0 [(s, e)] = true :=
    hfirst ▸ regexp.FindAllStringIndex_spans re line _
  simp only [replaceLine, hre, hfirst]
  rw [replaceMatches_done c line [(s, e)] [r] (by simp) hs (.cons hparse .nil)]
  simp [rewrittenLine, sub_from_zero]

/-- An instance of C4: in first-only mode the first timestamp is converted
and the second, which would not parse, is left as it is. -/
theorem replaceLine_first_only_witness :
    regexp.FindAllStringIndex (kitchenFirst.re.getD .emptyMatch)
        (str "at 12:00 and 93:15 done") (-1) = [(3, 8), (13, 18)]
      ∧ (replaceTime kitchenFirst (str "93:15")).2 ≠ none
      ∧ (replaceLine kitchenFirst (str "at 12:00 and 93:15 done")).map Prod.fst
          = some (str "at 04:00 and 93:15 done") :=
  ⟨by decide!, by decide!,
   (replaceLine_first_only kitchenFirst (kitchenFirst.re.getD .emptyMatch)
     (str "at 12:00 and 93:15 done") 3 8 (13, 18) [] (str "04:00") (by decide!) rfl
     (by decide!) (by decide!)).trans (by decide!)⟩

/-! ## The claims about the pattern compiler -/

/-- C5, as stated, fails. The format `%%Q` contains a `%` (its second byte)
immediately followed by `Q`, which is not a conversion of the table, and yet
`strfimeToRE` returns no error: the first `%` consumes the second as the
conversion `%%`. And for the unsupported conversion `%é` the message names
`Ã` (U+00C3, the first byte of `é` read as a code point), not `é`. -/
theorem strfimeToRE_percent_percent_accepted :
    (str "%%Q")[1]? = some '%'.toNat ∧ (str "%%Q")[2]? = some 'Q'.toNat
      ∧ strfmtimeRE 'Q'.toNat = none
      ∧ (strfimeToRE clockController (str "%%Q")).2 = none
      ∧ (strfimeToRE clockController (str "%é")).2
          = some (.errorf (str "unsupported conversion char Ã"))
      ∧ (strfimeToRE clockController (str "%é")).2
          ≠ some (.errorf (str "unsupported conversion char é")) := by
  decide!

/-- C5, amended. For every format in which a `%` that opens a conversion
(every token before it is a literal or a supported conversion) is
immediately followed by a character whose first byte `ch` is not one of the
18 conversions of the table, `strfimeToRE` returns the error
`unsupported conversion char` followed by the character with code point
`ch`, the leftmost such offending character itself when it is ASCII, and
leaves the controller as it was. -/
theorem strfimeToRE_unsupported {T : TimePkg} (c : controller T) (format : Str)
    (toks : List Token) (ch : Nat) (rest : List Nat)
    (hv : ∀ t ∈ toks, t.valid = true)
    (hfb : rangeFirstBytes format = toks.flatMap Token.render ++ '%'.toNat :: ch :: rest)
    (hch : strfmtimeRE ch = none) :
    strfimeToRE c format
        = (c, some (.errorf (str "unsupported conversion char " ++ utf8.EncodeRune ch)))
      ∧ (ch < 128 → utf8.EncodeRune ch = [ch]) := by
  constructor
  · have hsrc : regexSource format = .error ch := by
      rw [regexSource, hfb, strfimeLoop_tokens toks hv]
      simp [strfimeLoop, hch]
    simp only [strfimeToRE, hsrc, unsupportedConversion]
  · intro h
    have : ch ≤ 127 := by omega
    simp [utf8.EncodeRune, this]

/-- An instance of C5: of two unsupported conversions the leftmost is named. -/
theorem strfimeToRE_unsupported_witness :
    strfimeToRE clockController (str "%Y-%Q %R")
      = (clockController, some (.errorf (str "unsupported conversion char Q"))) :=
  (strfimeToRE_unsupported clockController (str "%Y-%Q %R")
    [.directive 'Y'.toNat, .literal '-'.toNat] 'Q'.toNat (str " %R")
    (by decide) (by decide) (by decide)).1

/-- C6, as stated, fails. The matcher compiled from the format `.` finds a
match in the line "a": the dot is written to the regex source as it is and
matches any character. -/
theorem strfimeToRE_dot_matches_any :
    regexSource (str ".") = .ok (str ".")
      ∧ ((strfimeToRE clockController (str ".")).1.re.map fun re =>
          regexp.FindAllStringIndex re (str "a") (-1)) = some [(0, 1)] := by
  decide!

/-- C6, amended. For every format, each literal character is placed in the
regex source as its raw first byte, without escaping, so a regex
metacharacter in the literal text keeps its regex meaning: the matcher
compiled from the format `.` matches the line "." and also finds a match in
the line "a". -/
theorem regexSource_literals_raw (format : Str) (toks : List Token)
    (hfb : rangeFirstBytes format = toks.flatMap Token.render)
    (hv : ∀ t ∈ toks, t.valid = true) :
    regexSource format = .ok (toks.flatMap Token.piece)
      ∧ (∀ ch, Token.piece (.literal ch) = [ch])
      ∧ ((strfimeToRE clockController (str ".")).1.re.map fun re =>
          (regexp.FindAllStringIndex re (str ".") (-1),
            regexp.FindAllStringIndex re (str "a") (-1))) = some ([(0, 1)], [(0, 1)]) :=
  ⟨regexSource_tokens format toks hfb hv, fun _ => rfl, by decide!⟩

/-- An instance of C6: the literal dot of `%H.%M` reaches the regex source
unescaped. -/
theorem regexSource_literals_raw_witness :
    regexSource (str "%H.%M") = .ok (str "\\d{2}.\\d{2}") :=
  (regexSource_literals_raw (str "%H.%M")
    [.directive 'H'.toNat, .literal '.'.toNat, .directive 'M'.toNat]
    (by decide) (by decide)).1.trans (by decide)

/-- C7, as stated, fails. The format `(` holds no `%` at all, and
`strfimeToRE` returns an error for it: the regex source `(` does not
compile (missing closing parenthesis). -/
theorem strfimeToRE_paren_rejected :
    '%'.toNat ∉ str "("
      ∧ (strfimeToRE clockController (str "(")).2
          = some (.syntaxError regexp.Error.missingParen) := by
  decide!

/-- C7, amended. `strfimeToRE` returns an error only for an unsupported
conversion or when `regexp.Compile` rejects the assembled regex source: for
every format in which each `%` that opens a conversion is followed by a
conversion of the table, it returns exactly the error of `regexp.Compile` on
the concatenated pieces, and it sets a matcher whenever it returns no error;
for the six formats of `TestReplace` it returns no error and sets a matcher. -/
theorem strfimeToRE_error_from_compile {T : TimePkg} (c : controller T) (format : Str)
    (toks : List Token) (hfb : rangeFirstBytes format = toks.flatMap Token.render)
    (hv : ∀ t ∈ toks, t.valid = true) :
    (strfimeToRE c format).2
        = (match regexp.Compile (toks.flatMap Token.piece) with
            | .ok _ => none
            | .error e => some (.syntaxError e))
      ∧ ((strfimeToRE c format).2 = none → (strfimeToRE c format).1.re.isSome = true)
      ∧ (∀ f ∈ testFormats,
          (strfimeToRE c f).2 = none ∧ (strfimeToRE c f).1.re.isSome = true) := by
  have h := strfimeToRE_of_source c format _ (regexSource_tokens format toks hfb hv)
  refine ⟨?_, ?_, ?_⟩
  · rw [h]; cases regexp.Compile (toks.flatMap Token.piece) <;> rfl
  · rw [h]; cases regexp.Compile (toks.flatMap Token.piece) <;> simp
  · intro f hf
    apply strfimeToRE_of_formatCompiles
    revert f
    decide!

/-- An instance of C7: the format `%H:%M` compiles without error. -/
theorem strfimeToRE_error_from_compile_witness :
    (strfimeToRE clockController (str "%H:%M")).2 = none :=
  (strfimeToRE_error_from_compile clockController (str "%H:%M")
    [.directive 'H'.toNat, .literal ':'.toNat, .directive 'M'.toNat]
    (by decide) (by decide)).1.trans (by decide!)

/-- C9, as stated, fails. The table fragment of `%z` is `(-|\+)\d{4}`, and
the matcher compiled from the format `%z` has one capturing group besides
the whole match. -/
theorem strfimeToRE_offset_has_capture :
    regexSource (str "%z") = .ok (str "(-|\\+)\\d{4}")
      ∧ (strfimeToRE clockController (str "%z")).2 = none
      ∧ (strfimeToRE clockController (str "%z")).1.re.map regexp.NumSubexp = some 1 := by
  decide!

/-- C9, amended. For every format that compiles and holds neither the
conversion `%z` nor a literal `(`, the compiled matcher contains no capture
group other than the implicit whole match: `%z` is the only entry of the
table whose fragment holds a parenthesis. The matcher compiled from `%z`
has one capturing group. -/
theorem strfimeToRE_no_capture {T : TimePkg} (c : controller T) (format : Str)
    (toks : List Token) (re : regexp.Regex)
    (hfb : rangeFirstBytes format = toks.flatMap Token.render)
    (hv : ∀ t ∈ toks, t.valid = true)
    (hz : Token.directive 'z'.toNat ∉ toks) (hp : Token.literal '('.toNat ∉ toks)
    (hre : (strfimeToRE c format).1.re = some re) :
    regexp.NumSubexp re = 0
      ∧ (∀ p ∈ strfmtimeRE_entries, p.1 ≠ 'z'.toNat → '('.toNat ∉ p.2)
      ∧ (strfimeToRE c (str "%z")).1.re.map regexp.NumSubexp = some 1 := by
  refine ⟨?_, by decide, ?_⟩
  · have hno : 40 ∉ toks.flatMap Token.piece := by
      intro h
      obtain ⟨t, ht, hmem⟩ := List.mem_flatMap.mp h
      exact piece_no_paren t (hv t ht) (fun e => hz (e ▸ ht)) (fun e => hp (e ▸ ht)) hmem
    rw [strfimeToRE_of_source c format _ (regexSource_tokens format toks hfb hv)] at hre
    cases hc : regexp.Compile (toks.flatMap Token.piece) with
    | error e => simp [hc] at hre
    | ok re1 =>
      simp only [hc, Option.some.injEq] at hre
      subst hre
      exact regexp.Compile_NumSubexp _ _ hc hno
  · have hsrc : regexSource (str "%z") = .ok (str "(-|\\+)\\d{4}") := by decide
    rw [strfimeToRE_of_source c _ _ hsrc]
    have hc : (regexp.Compile (str "(-|\\+)\\d{4}")).toOption.map regexp.NumSubexp = some 1 := by
      decide!
    cases hcc : regexp.Compile (str "(-|\\+)\\d{4}") with
    | error e => simp [hcc, Except.toOption] at hc
    | ok re1 => simpa [hcc, Except.toOption] using hc

/-- An instance of C9: the matcher of `%Y-%m-%d` has no capturing group. -/
theorem strfimeToRE_no_capture_witness :
    (strfimeToRE clockController (str "%Y-%m-%d")).1.re.map regexp.NumSubexp = some 0 :=
  (show (strfimeToRE clockController (str "%Y-%m-%d")).1.re.map regexp.NumSubexp
      = some (regexp.NumSubexp ((strfimeToRE clockController (str "%Y-%m-%d")).1.re.getD
          .emptyMatch)) by decide!).trans
    (congrArg some (strfimeToRE_no_capture clockController (str "%Y-%m-%d")
      [.directive 'Y'.toNat, .literal '-'.toNat, .directive 'm'.toNat, .literal '-'.toNat,
        .directive 'd'.toNat]
      ((strfimeToRE clockController (str "%Y-%m-%d")).1.re.getD .emptyMatch)
      (by decide) (by decide) (by decide) (by decide) (by decide!)).1)

/-- C10: the code misses the claim. The matcher compiled from the format
`%b %e %H:%M:%S` has the regex source
`[A-Z][a-z]{2} \d?\d \d{2}:\d{2}:\d{2}`; it finds the timestamp in the line
"Dec 10 07:52:10 server restart" but finds no match at all in the line
"Dec  5 07:52:10 server restart": the fragment `\d?\d` of `%e` cannot take
the pad space before the single digit. -/
theorem strfimeToRE_padded_day_not_matched :
    regexSource (str "%b %e %H:%M:%S") = .ok (str "[A-Z][a-z]{2} \\d?\\d \\d{2}:\\d{2}:\\d{2}")
      ∧ ((strfimeToRE clockController (str "%b %e %H:%M:%S")).1.re.map fun re =>
          (regexp.FindAllStringIndex re (str "Dec  5 07:52:10 server restart") (-1),
            regexp.FindAllStringIndex re (str "Dec 10 07:52:10 server restart") (-1)))
          = some ([], [(0, 15)]) := by
  decide!

/-! ## Further properties of the library models -/

theorem utf8.DecodeRune_skipped (a : Nat) (t : Str) :
    ∀ x ∈ t.take ((utf8.DecodeRune (a :: t)).2 - 1), 128 ≤ x := by
  simp only [utf8.DecodeRune]
  split_ifs <;> (try split) <;> (try split_ifs) <;>
    simp_all [utf8.isCont, utf8.acceptLo, utf8.acceptHi] <;>
    (try split_ifs at *) <;> omega

theorem hasDigitPair_cons_of_not (a : Nat) (t : Str) (h : regexp.isDigit a = false) :
    hasDigitPair (a :: t) = hasDigitPair t := by
  cases t with
  | nil => rfl
  | cons b t1 => simp [hasDigitPair, h]

theorem hasDigitPair_drop : ∀ (k : Nat) (t : Str),
    (∀ x ∈ t.take k, 128 ≤ x) → hasDigitPair (t.drop k) = hasDigitPair t := by
  intro k
  induction k with
  | zero => intro t _; rfl
  | succ k ih =>
    intro t h
    cases t with
    | nil => rfl
    | cons x t1 =>
      have hx : 128 ≤ x := h x (by simp)
      have hnd : regexp.isDigit x = false := by
        simp only [regexp.isDigit, Bool.and_eq_false_iff, decide_eq_false_iff_not]
        omega
      rw [List.drop_succ_cons, hasDigitPair_cons_of_not x t1 hnd]
      exact ih t1 (fun y hy => h y (by simp [hy]))

namespace regexp

theorem stepIf_digit (k : Cont) (pos a : Nat) (t : Str) :
    stepIf (classHas false [⟨false, [(48, 57)]⟩]) k ⟨pos, a :: t⟩
      = if isDigit a = true then k ⟨pos + 1, t⟩ else none := by
  have hcls : ∀ r, classHas false [⟨false, [(48, 57)]⟩] r = isDigit r := by
    intro r
    simp [classHas, ClassItem.has, inRanges, isDigit]
  simp only [stepIf, hcls]
  by_cases hd : isDigit a = true
  · have ha : a < 128 := by
      simp only [isDigit, Bool.and_eq_true, decide_eq_true_eq] at hd
      omega
    have hdec : utf8.DecodeRune (a :: t) = (a, 1) := by simp [utf8.DecodeRune, ha]
    simp [hdec, hd]
  · have : isDigit (utf8.DecodeRune (a :: t)).1 = false := by
      by_contra hc
      have hc1 : isDigit (utf8.DecodeRune (a :: t)).1 = true := by simpa using hc
      have hlt : (utf8.DecodeRune (a :: t)).1 < 128 := by
        simp only [isDigit, Bool.and_eq_true, decide_eq_true_eq] at hc1
        omega
      rw [utf8.DecodeRune_ascii a t hlt] at hc1
      exact hd hc1
    simp [this, hd]

theorem matchAt_twoDigits (k : Cont) (pos : Nat) (s : Str) :
    matchAt twoDigitsRe k ⟨pos, s⟩
      = match s with
        | a :: b :: t => if isDigit a = true ∧ isDigit b = true then k ⟨pos + 2, t⟩ else none
        | _ => none := by
  simp only [twoDigitsRe, matchAt, mRep, Nat.lt_irrefl, if_false, mPow, Nat.sub_self, mOptNest]
  match s with
  | [] => simp [stepIf]
  | [a] =>
    rw [stepIf_digit]
    split_ifs <;> simp [stepIf]
  | a :: b :: t =>
    rw [stepIf_digit]
    by_cases ha : isDigit a = true
    · simp only [ha, if_true, true_and]
      rw [stepIf_digit]
    · simp [ha]

end regexp

namespace regexp

theorem search_twoDigits : ∀ (n pos : Nat) (s : Str), s.length < n →
    (search twoDigitsRe n ⟨pos, s⟩).isSome = hasDigitPair s := by
  intro n
  induction n with
  | zero => intro pos s h; exact absurd h (Nat.not_lt_zero _)
  | succ n ih =>
    intro pos s hlen
    simp only [search, matchAt_twoDigits]
    match s with
    | [] => rfl
    | [a] =>
      simp only [List.drop_nil]
      rw [ih _ [] (by simp at hlen ⊢; omega)]
      rfl
    | a :: b :: t =>
      by_cases hd : isDigit a = true ∧ isDigit b = true
      · simp [hd, hasDigitPair]
      · simp only [hd, if_false]
        have hlen2 : ((b :: t).drop ((utf8.DecodeRune (a :: b :: t)).2 - 1)).length < n := by
          simp only [List.length_drop, List.length_cons] at hlen ⊢
          omega
        rw [ih _ _ hlen2, hasDigitPair_drop _ _ (utf8.DecodeRune_skipped a (b :: t))]
        have : (isDigit a && isDigit b) = false := by
          simpa using hd
        simp [hasDigitPair, this]

theorem FindAllStringIndex_nonempty (re : Regex) (s : Str) (n : Int) (hn : n ≠ 0) :
    FindAllStringIndex re s n ≠ [] ↔ (search re (s.length + 1) ⟨0, s⟩).isSome = true := by
  have hN : (if n < 0 then s.length + 1 else n.toNat) ≠ 0 := by
    split_ifs with h
    · omega
    · have : 0 < n := by omega
      omega
  simp only [FindAllStringIndex, allMatches, hN, Nat.not_lt_zero, or_self, if_false,
    List.drop_zero]
  cases hs : search re (s.length + 1) ⟨0, s⟩ with
  | none => simp
  | some m => simp

end regexp

namespace regexp

theorem search_emptyMatch (n : Nat) (q : Cursor) :
    search .emptyMatch (n + 1) q = some (q.pos, q.pos) := by
  simp [search, matchAt]

theorem allMatches_emptyMatch (s : Str) : ∀ (fuel n pos : Nat) (prev : Option Nat),
    ∀ m ∈ allMatches .emptyMatch s fuel n pos prev, m.1 = m.2 := by
  intro fuel
  induction fuel with
  | zero => intro n pos prev m hm; simp [allMatches] at hm
  | succ fuel ih =>
    intro n pos prev m hm
    simp only [allMatches, search_emptyMatch] at hm
    split_ifs at hm
    · simp at hm
    · exact ih _ _ _ m hm
    · rcases List.mem_cons.mp hm with rfl | hm
      · rfl
      · exact ih _ _ _ m hm

end regexp

theorem strfimeToRE_re {T : TimePkg} (c : controller T) (format src : Str)
    (re : regexp.Regex) (hs : regexSource format = .ok src)
    (hc : regexp.Compile src = .ok re) :
    strfimeToRE c format = ({ c with re := some re }, none) := by
  rw [strfimeToRE_of_source c format src hs, hc]

theorem exampleHolds_spec {T : TimePkg} (c : controller T) (ex : Nat × Str × Str)
    (h : exampleHolds ex = true) :
    ∃ re, (strfimeToRE c ['%'.toNat, ex.1]).1.re = some re
      ∧ regexp.FindAllStringIndex re ex.2.1 (-1) ≠ []
      ∧ regexp.FindAllStringIndex re ex.2.2 (-1) = [] := by
  unfold exampleHolds at h
  cases hs : regexSource ['%'.toNat, ex.1] with
  | error ch => rw [hs] at h; simp at h
  | ok src =>
    rw [hs] at h
    simp only at h
    cases hc : regexp.Compile src with
    | error e => rw [hc] at h; simp at h
    | ok re =>
      rw [hc] at h
      simp only [Bool.and_eq_true, decide_eq_true_eq] at h
      exact ⟨re, by rw [strfimeToRE_re c _ src re hs hc], h.1, h.2⟩

/-! ## Further properties of the line rewriter -/

theorem replaceLoop_congr {T : TimePkg} (c c1 : controller T)
    (h1 : c1.srcLoc = c.srcLoc) (h2 : c1.destLoc = c.destLoc) (h3 : c1.format = c.format)
    (line : Str) : ∀ (ms : List (Nat × Nat)) (offset : Nat) (buf : Str),
      replaceLoop c1 line ms offset buf = replaceLoop c line ms offset buf := by
  intro ms
  induction ms with
  | nil => intro offset buf; rfl
  | cons m rest ih =>
    intro offset buf
    have hrt : ∀ tok, replaceTime c1 tok = replaceTime c tok := by
      intro tok
      simp only [replaceTime, h1, h2, h3]
    simp only [replaceLoop, hrt, ih]

theorem replaceMatches_congr {T : TimePkg} (c c1 : controller T)
    (h1 : c1.srcLoc = c.srcLoc) (h2 : c1.destLoc = c.destLoc) (h3 : c1.format = c.format)
    (line : Str) (ms : List (Nat × Nat)) :
    (replaceMatches c1 line ms).map Prod.fst = (replaceMatches c line ms).map Prod.fst := by
  cases ms with
  | nil => rfl
  | cons m rest =>
    simp only [replaceMatches, replaceLoop_congr c c1 h1 h2 h3]
    cases replaceLoop c line (m :: rest) 0 [] with
    | panicked => rfl
    | aborted buf => rfl
    | done offset buf =>
      simp only
      split_ifs
      · cases slice line offset line.length <;> rfl
      · rfl

/-- Controllers that agree on everything but the buffer return the same
string for every line. -/
theorem replaceLine_congr {T : TimePkg} (c c1 : controller T) (h0 : c1.re = c.re)
    (hl : c1.matchLimit = c.matchLimit) (h1 : c1.srcLoc = c.srcLoc)
    (h2 : c1.destLoc = c.destLoc) (h3 : c1.format = c.format) (line : Str) :
    (replaceLine c1 line).map Prod.fst = (replaceLine c line).map Prod.fst := by
  unfold replaceLine
  rw [h0, hl]
  cases c.re with
  | none => rfl
  | some re => exact replaceMatches_congr c c1 h1 h2 h3 line _

theorem replaceMatches_controller {T : TimePkg} (c : controller T) (line : Str)
    (ms : List (Nat × Nat)) (out : Str) (c1 : controller T)
    (h : replaceMatches c line ms = some (out, c1)) : c1 = { c with buf := c1.buf } := by
  cases ms with
  | nil =>
    simp only [replaceMatches, Option.some.injEq, Prod.mk.injEq] at h
    rw [← h.2]
  | cons m rest =>
    simp only [replaceMatches] at h
    split at h
    · simp at h
    · simp only [Option.some.injEq, Prod.mk.injEq] at h
      rw [← h.2]
    · split_ifs at h
      · split at h
        · simp at h
        · simp only [Option.some.injEq, Prod.mk.injEq] at h
          rw [← h.2]
      · simp only [Option.some.injEq, Prod.mk.injEq] at h
        rw [← h.2]

/-- A call of `replaceLine` changes nothing of the controller but the buffer. -/
theorem replaceLine_controller {T : TimePkg} (c : controller T) (line out : Str)
    (c1 : controller T) (h : replaceLine c line = some (out, c1)) :
    c1.re = c.re ∧ c1.matchLimit = c.matchLimit ∧ c1.srcLoc = c.srcLoc
      ∧ c1.destLoc = c.destLoc ∧ c1.format = c.format := by
  have hc1 : c1 = { c with buf := c1.buf } := by
    unfold replaceLine at h
    split at h
    · simp at h
    · exact replaceMatches_controller c line _ out c1 h
  refine ⟨?_, ?_, ?_, ?_, ?_⟩ <;> rw [hc1]

theorem replaceLoop_no_panic {T : TimePkg} (c : controller T) (line : Str) :
    ∀ (ms : List (Nat × Nat)) (offset : Nat) (buf : Str),
      offset ≤ line.length → spansFrom line.length offset ms = true →
      (∃ buf1, replaceLoop c line ms offset buf = .aborted buf1)
        ∨ (∃ off1 buf1, replaceLoop c line ms offset buf = .done off1 buf1
            ∧ off1 ≤ line.length) := by
  intro ms
  induction ms with
  | nil => intro offset buf ho _; exact Or.inr ⟨offset, buf, rfl, ho⟩
  | cons m rest ih =>
    intro offset buf _ hs
    simp only [spansFrom, Bool.and_eq_true, decide_eq_true_eq] at hs
    obtain ⟨⟨⟨h1, h2⟩, h3⟩, h4⟩ := hs
    simp only [replaceLoop, slice_of_le h1 (Nat.le_trans h2 h3), slice_of_le h2 h3]
    rcases hr : replaceTime c (sub line m.1 m.2) with ⟨r, err⟩
    cases err with
    | some e => exact Or.inl ⟨_, rfl⟩
    | none => exact ih m.2 _ h3 h4

theorem replaceMatches_isSome {T : TimePkg} (c : controller T) (line : Str)
    (ms : List (Nat × Nat)) (hs : spansFrom line.length 0 ms = true) :
    (replaceMatches c line ms).isSome = true := by
  cases ms with
  | nil => rfl
  | cons m rest =>
    simp only [replaceMatches]
    rcases replaceLoop_no_panic c line (m :: rest) 0 [] (Nat.zero_le _) hs with
      ⟨buf1, h⟩ | ⟨off1, buf1, h, hle⟩
    · simp [h]
    · simp only [h]
      split_ifs
      · rw [slice_of_le hle (Nat.le_refl _)]; rfl
      · rfl

/-! ## Further properties of the pattern compiler -/

theorem utf8.DecodeRune_append_ascii (a b : Nat) (t : Str) (hb : b < 128) :
    (utf8.DecodeRune (a :: (t ++ [b]))).2 = (utf8.DecodeRune (a :: t)).2 := by
  match t with
  | [] =>
    simp only [utf8.DecodeRune, List.nil_append]
    split_ifs <;> simp_all [utf8.isCont, utf8.acceptLo, utf8.acceptHi]
    all_goals omega
  | [s1] =>
    simp only [utf8.DecodeRune, List.cons_append, List.nil_append]
    split_ifs <;> simp_all [utf8.isCont, utf8.acceptLo, utf8.acceptHi]
    all_goals omega
  | [s1, s2] =>
    simp only [utf8.DecodeRune, List.cons_append, List.nil_append]
    split_ifs <;> simp_all [utf8.isCont, utf8.acceptLo, utf8.acceptHi]
    all_goals omega
  | s1 :: s2 :: s3 :: t1 =>
    simp only [utf8.DecodeRune, List.cons_append]

theorem rangeLoop_nil (n : Nat) : rangeLoop n [] = [] := by
  cases n <;> rfl

theorem rangeLoop_append_ascii (b : Nat) (hb : b < 128) : ∀ (n : Nat) (s : Str),
    s.length ≤ n → rangeLoop (n + 1) (s ++ [b]) = rangeLoop n s ++ [b] := by
  intro n
  induction n with
  | zero =>
    intro s hs
    have : s = [] := List.length_eq_zero.mp (Nat.le_zero.mp hs)
    subst this
    have hd : utf8.DecodeRune [b] = (b, 1) := by simp [utf8.DecodeRune, hb]
    simp [rangeLoop, hd]
  | succ n ih =>
    intro s hs
    cases s with
    | nil =>
      have hd : utf8.DecodeRune [b] = (b, 1) := by simp [utf8.DecodeRune, hb]
      simp [rangeLoop, hd, rangeLoop_nil]
    | cons a t =>
      have hw := utf8.DecodeRune_width_le (a :: t)
      have hw1 := utf8.DecodeRune_width_pos a t
      simp only [List.length_cons] at hw hs
      simp only [List.cons_append, rangeLoop, List.append_eq,
        utf8.DecodeRune_append_ascii a b t hb]
      rw [List.drop_append_of_le_length (by omega),
        ih _ (by simp only [List.length_drop]; omega)]

/-- Appending an ASCII byte to a string appends it to the bytes that the
loop `for i := range s` visits. -/
theorem rangeFirstBytes_append_ascii (s : Str) (b : Nat) (hb : b < 128) :
    rangeFirstBytes (s ++ [b]) = rangeFirstBytes s ++ [b] := by
  unfold rangeFirstBytes
  rw [List.length_append, List.length_singleton]
  exact rangeLoop_append_ascii b hb _ s (Nat.le_refl _)

/-- The encoding of a character outside ASCII has a leading byte that is not
ASCII and is decoded back as one rune of the full width. -/
theorem utf8.EncodeRune_multibyte (r : Nat) (h1 : 0x80 ≤ r) (h2 : r ≤ 0x10FFFF)
    (h3 : ¬ (0xD800 ≤ r ∧ r ≤ 0xDFFF)) :
    ∃ s0 t, utf8.EncodeRune r = s0 :: t ∧ 128 ≤ s0 ∧ 1 ≤ t.length
      ∧ (utf8.DecodeRune (s0 :: t)).2 = t.length + 1 := by
  unfold utf8.EncodeRune
  have hn1 : ¬ r ≤ 0x7F := by omega
  have hn3 : ¬ (0x10FFFF < r ∨ (0xD800 ≤ r ∧ r ≤ 0xDFFF)) := by omega
  simp only [hn1, hn3, if_false]
  split_ifs with ha hb
  · refine ⟨_, _, rfl, by omega, by simp, ?_⟩
    have e1 : ¬ (0xC0 + r / 64 < 0x80) := by omega
    have e2 : ¬ (0xC0 + r / 64 < 0xC2) := by omega
    have e3 : 0xC0 + r / 64 ≤ 0xDF := by omega
    have e4 : utf8.isCont (0x80 + r % 64) = true := by
      simp only [utf8.isCont, Bool.and_eq_true, decide_eq_true_eq]; omega
    simp [utf8.DecodeRune, e1, e2, e3, e4]
  · refine ⟨_, _, rfl, by omega, by simp, ?_⟩
    have e1 : ¬ (0xE0 + r / 4096 < 0x80) := by omega
    have e2 : ¬ (0xE0 + r / 4096 < 0xC2) := by omega
    have e3 : ¬ (0xE0 + r / 4096 ≤ 0xDF) := by omega
    have e4 : 0xE0 + r / 4096 ≤ 0xEF := by omega
    have e5 : utf8.isCont (0x80 + r % 64) = true := by
      simp only [utf8.isCont, Bool.and_eq_true, decide_eq_true_eq]; omega
    have e6 : utf8.acceptLo (0xE0 + r / 4096) ≤ 0x80 + r / 64 % 64 := by
      unfold utf8.acceptLo; split_ifs <;> omega
    have e7 : 0x80 + r / 64 % 64 ≤ utf8.acceptHi (0xE0 + r / 4096) := by
      unfold utf8.acceptHi; split_ifs <;> omega
    simp [utf8.DecodeRune, e1, e2, e3, e4, e5, e6, e7]
  · refine ⟨_, _, rfl, by omega, by simp, ?_⟩
    have e1 : ¬ (0xF0 + r / 262144 < 0x80) := by omega
    have e2 : ¬ (0xF0 + r / 262144 < 0xC2) := by omega
    have e3 : ¬ (0xF0 + r / 262144 ≤ 0xDF) := by omega
    have e4 : ¬ (0xF0 + r / 262144 ≤ 0xEF) := by omega
    have e4b : 0xF0 + r / 262144 ≤ 0xF4 := by omega
    have e5 : utf8.isCont (0x80 + r % 64) = true := by
      simp only [utf8.isCont, Bool.and_eq_true, decide_eq_true_eq]; omega
    have e5b : utf8.isCont (0x80 + r / 64 % 64) = true := by
      simp only [utf8.isCont, Bool.and_eq_true, decide_eq_true_eq]; omega
    have e6 : utf8.acceptLo (0xF0 + r / 262144) ≤ 0x80 + r / 4096 % 64 := by
      unfold utf8.acceptLo; split_ifs <;> omega
    have e7 : 0x80 + r / 4096 % 64 ≤ utf8.acceptHi (0xF0 + r / 262144) := by
      unfold utf8.acceptHi; split_ifs <;> omega
    simp [utf8.DecodeRune, e1, e2, e3, e4, e4b, e5, e5b, e6, e7]

theorem rangeFirstBytes_one_rune (s0 : Nat) (t : Str)
    (hw : (utf8.DecodeRune (s0 :: t)).2 = t.length + 1) : rangeFirstBytes (s0 :: t) = [s0] := by
  simp [rangeFirstBytes, rangeLoop, hw, rangeLoop_nil]

theorem regexp.Compile_invalid_byte (s0 : Nat) (h : 128 ≤ s0) :
    regexp.Compile [s0] = .error .invalidUTF8 := by
  have hd : utf8.DecodeRune [s0] = (utf8.RuneError, 1) := by
    simp only [utf8.DecodeRune]
    split_ifs <;> first | rfl | omega
  have hr : regexp.runesOf [s0] = [regexp.invalidRune] := by
    simp [regexp.runesOf, utf8.decodeAll, hd]
  unfold regexp.Compile
  rw [hr]
  rfl

/-! ## Properties of the clock stand-in -/

namespace regexp

end regexp

/-- C11. For each of the 18 conversion characters X of the table, the
matcher compiled from the format `%X` finds a match in at least one concrete
string and finds no match in at least one malformed string (the strings of
`directiveExamples`); the matcher for the 2-digit hour `%H` matches "07" and
finds no match in "7", and it finds a match in a string if and only if the
string contains two consecutive ASCII digits. -/
theorem strfimeToRE_directive_coverage {T : TimePkg} (c : controller T) :
    directiveExamples.map Prod.fst = strfmtimeRE_entries.map Prod.fst
      ∧ (∀ ex ∈ directiveExamples,
          ∃ re, (strfimeToRE c ['%'.toNat, ex.1]).1.re = some re
            ∧ regexp.FindAllStringIndex re ex.2.1 (-1) ≠ []
            ∧ regexp.FindAllStringIndex re ex.2.2 (-1) = [])
      ∧ (∃ re, (strfimeToRE c (str "%H")).1.re = some re
            ∧ regexp.FindAllStringIndex re (str "07") (-1) = [(0, 2)]
            ∧ regexp.FindAllStringIndex re (str "7") (-1) = []
            ∧ ∀ (s : Str) (n : Int), n ≠ 0 →
                (regexp.FindAllStringIndex re s n ≠ [] ↔ hasDigitPair s = true)) := by
  refine ⟨by decide, ?_, ?_⟩
  · intro ex hex
    have hall : ∀ ex ∈ directiveExamples, exampleHolds ex = true := by decide!
    exact exampleHolds_spec c ex (hall ex hex)
  · have hs : regexSource (str "%H") = .ok (str "\\d{2}") := by decide
    have hc : regexp.Compile (str "\\d{2}") = .ok twoDigitsRe := by decide!
    refine ⟨twoDigitsRe, by rw [strfimeToRE_re c _ _ _ hs hc], by decide!, by decide!, ?_⟩
    intro s n hn
    rw [regexp.FindAllStringIndex_nonempty twoDigitsRe s n hn,
      regexp.search_twoDigits _ _ s (Nat.lt_succ_self _)]

/-- C13. For the empty format, `strfimeToRE` returns no error and produces a
matcher whose regex source is the empty string; the matcher matches only the
empty string: every span it locates in any line has start = end. -/
theorem strfimeToRE_empty_format {T : TimePkg} (c : controller T) (line : Str) (n : Int) :
    regexSource [] = .ok []
      ∧ strfimeToRE c [] = ({ c with re := some .emptyMatch }, none)
      ∧ (∀ m ∈ regexp.FindAllStringIndex .emptyMatch line n, m.1 = m.2)
      ∧ regexp.FindAllStringIndex .emptyMatch (str "abc") (-1)
          = [(0, 0), (1, 1), (2, 2), (3, 3)] := by
  refine ⟨rfl, strfimeToRE_re c [] [] _ rfl (by decide!), ?_, by decide!⟩
  exact regexp.allMatches_emptyMatch line _ _ _ _

/-- C14. The string returned by `replaceLine` does not depend on the
contents of the reusable buffer before the call: two controllers that differ
only in `buf` return the same string for every line, and so does the
controller left by any earlier call, also one that stopped at a parse error. -/
theorem replaceLine_buf_independent {T : TimePkg} (c : controller T) (line : Str) :
    (∀ b : Str, (replaceLine { c with buf := b } line).map Prod.fst
        = (replaceLine c line).map Prod.fst)
      ∧ (∀ (earlier out : Str) (c1 : controller T), replaceLine c earlier = some (out, c1) →
          (replaceLine c1 line).map Prod.fst = (replaceLine c line).map Prod.fst) := by
  refine ⟨fun b => replaceLine_congr c { c with buf := b } rfl rfl rfl rfl rfl line, ?_⟩
  intro earlier out c1 h
  obtain ⟨h0, hl, h1, h2, h3⟩ := replaceLine_controller c earlier out c1 h
  exact replaceLine_congr c c1 h0 hl h1 h2 h3 line

/-- An instance of C14: after a call that stopped at a parse error with a
half-filled buffer, the next line is rewritten as by a fresh controller. -/
theorem replaceLine_buf_independent_witness :
    (replaceLine kitchen (str "at 12:00 and 93:15 done")).map (fun p => p.2.buf)
        = some (str "at 04:00 and ")
      ∧ ((replaceLine kitchen (str "at 12:00 and 93:15 done")).bind fun p =>
          (replaceLine p.2 (str "up 03:15")).map Prod.fst)
        = (replaceLine kitchen (str "up 03:15")).map Prod.fst := by
  refine ⟨by decide!, ?_⟩
  have hsome : (replaceLine kitchen (str "at 12:00 and 93:15 done")).isSome = true := by
    decide!
  cases h : replaceLine kitchen (str "at 12:00 and 93:15 done") with
  | none => rw [h] at hsome; exact absurd hsome (by decide)
  | some p =>
    exact (replaceLine_buf_independent kitchen (str "up 03:15")).2
      (str "at 12:00 and 93:15 done") p.1 p.2 h

/-- C15. For every token, `replaceTime` returns an error if and only if
parsing the token under the layout in the source zone fails, and in that
case the string it returns is the input token unchanged; otherwise it
returns the parsed instant re-expressed in the destination zone and
formatted with the same layout. -/
theorem replaceTime_outcome {T : TimePkg} (c : controller T) (token : Str) :
    ((replaceTime c token).2 ≠ none
        ↔ ∃ e, T.ParseInLocation c.format token c.srcLoc = .error e)
      ∧ (∀ e, T.ParseInLocation c.format token c.srcLoc = .error e →
          replaceTime c token = (token, some (.parseError e)))
      ∧ (∀ t, T.ParseInLocation c.format token c.srcLoc = .ok t →
          replaceTime c token = (T.Format (T.In t c.destLoc) c.format, none)) := by
  refine ⟨?_, ?_, ?_⟩
  · unfold replaceTime
    cases T.ParseInLocation c.format token c.srcLoc with
    | error e => simp
    | ok t => simp
  · intro e h; simp [replaceTime, h]
  · intro t h; simp [replaceTime, h]

/-- C16. A format that ends with an unpaired `%` (a `%` that opens a
conversion but is the last character) is not rejected: `strfimeToRE` reports
no unsupported conversion for it and builds exactly the same regex source,
and returns the same result, as for the format with that final `%` removed. -/
theorem strfimeToRE_trailing_percent {T : TimePkg} (c : controller T) (format : Str)
    (toks : List Token) (hfb : rangeFirstBytes format = toks.flatMap Token.render)
    (hv : ∀ t ∈ toks, t.valid = true) :
    regexSource (format ++ ['%'.toNat]) = .ok (toks.flatMap Token.piece)
      ∧ regexSource (format ++ ['%'.toNat]) = regexSource format
      ∧ strfimeToRE c (format ++ ['%'.toNat]) = strfimeToRE c format := by
  have h1 : regexSource (format ++ ['%'.toNat]) = .ok (toks.flatMap Token.piece) := by
    rw [regexSource, rangeFirstBytes_append_ascii format _ (by decide), hfb,
      strfimeLoop_tokens toks hv]
    simp [strfimeLoop]
  have h2 := regexSource_tokens format toks hfb hv
  refine ⟨h1, h1.trans h2.symm, ?_⟩
  rw [strfimeToRE_of_source c _ _ h1, strfimeToRE_of_source c _ _ h2]

/-- An instance of C16: `%H:%M%` builds the regex source of `%H:%M`. -/
theorem strfimeToRE_trailing_percent_witness :
    regexSource (str "%H:%M" ++ ['%'.toNat]) = .ok (str "\\d{2}:\\d{2}") :=
  (strfimeToRE_trailing_percent clockController (str "%H:%M")
    [.directive 'H'.toNat, .literal ':'.toNat, .directive 'M'.toNat]
    (by decide) (by decide)).1.trans (by decide)

/-- C17. `strfimeToRE` reads only the first byte of each UTF-8 encoded
character of the format: for every format consisting of a single literal
character whose UTF-8 encoding has two or more bytes, the regex source it
builds is the one-byte string holding only the leading byte of that
character, not the full encoding (and `regexp.Compile` rejects that lone
byte as invalid UTF-8). -/
theorem regexSource_multibyte_literal {T : TimePkg} (c : controller T) (r : Nat)
    (h1 : 0x80 ≤ r) (h2 : r ≤ 0x10FFFF) (h3 : ¬ (0xD800 ≤ r ∧ r ≤ 0xDFFF)) :
    2 ≤ (utf8.EncodeRune r).length
      ∧ regexSource (utf8.EncodeRune r) = .ok [(utf8.EncodeRune r).headD 0]
      ∧ [(utf8.EncodeRune r).headD 0] ≠ utf8.EncodeRune r
      ∧ (strfimeToRE c (utf8.EncodeRune r)).2 = some (.syntaxError .invalidUTF8) := by
  obtain ⟨s0, t, henc, hs0, ht, hw⟩ := utf8.EncodeRune_multibyte r h1 h2 h3
  have hsrc : regexSource (utf8.EncodeRune r) = .ok [s0] := by
    have hne : s0 ≠ 37 := by omega
    rw [henc, regexSource, rangeFirstBytes_one_rune s0 t hw]
    simp [strfimeLoop, hne]
  rw [henc] at hsrc ⊢
  refine ⟨by simp only [List.length_cons]; omega, hsrc, ?_, ?_⟩
  · intro h
    have := congrArg List.length h
    simp only [List.headD_cons, List.length_cons, List.length_nil] at this
    omega
  · rw [strfimeToRE_of_source c _ _ hsrc, regexp.Compile_invalid_byte s0 hs0]

/-- An instance of C17: the format `é` (bytes C3 A9) builds the regex source
of the single byte C3. -/
theorem regexSource_multibyte_literal_witness :
    regexSource (str "é") = .ok [0xC3] :=
  (regexSource_multibyte_literal clockController 'é'.toNat
    (by decide) (by decide) (by decide)).2.1.trans (by decide)

/-- C18. `replaceLine` never slices out of range: for every line and every
list of spans with what the matcher guarantees (each span has
`0 ≤ start ≤ end ≤ len(line)` and starts at or after the end of the span
before it), no slice taken by the loop or after it panics, so the rewriter
returns a result; and the spans of `FindAllStringIndex` are of that kind. -/
theorem replaceLine_total {T : TimePkg} (c : controller T) (line : Str)
    (ms : List (Nat × Nat)) (hs : spansFrom line.length 0 ms = true) :
    (replaceMatches c line ms).isSome = true
      ∧ replaceLoop c line ms 0 [] ≠ .panicked
      ∧ (∀ lo hi, slice line lo hi = none ↔ ¬ (lo ≤ hi ∧ hi ≤ line.length))
      ∧ (∀ re, c.re = some re → (replaceLine c line).isSome = true) := by
  refine ⟨replaceMatches_isSome c line ms hs, ?_, ?_, ?_⟩
  · rcases replaceLoop_no_panic c line ms 0 [] (Nat.zero_le _) hs with
      ⟨buf1, h⟩ | ⟨off1, buf1, h, _⟩ <;> simp [h]
  · intro lo hi
    unfold slice
    split_ifs with h <;> simp [h]
  · intro re hre
    simp only [replaceLine, hre]
    exact replaceMatches_isSome c line _ (regexp.FindAllStringIndex_spans re line _)

/-- An instance of C18: spans that touch each other and the end of the line. -/
theorem replaceLine_total_witness :
    spansFrom (str "12:0003:15").length 0 [(0, 5), (5, 10)] = true
      ∧ (replaceMatches kitchen (str "12:0003:15") [(0, 5), (5, 10)]).isSome = true
      ∧ (replaceMatches kitchen (str "12:0003:15") [(0, 5), (5, 10)]).map Prod.fst
          = some (str "04:0019:15") :=
  ⟨by decide,
   (replaceLine_total kitchen (str "12:0003:15") [(0, 5), (5, 10)] (by decide)).1,
   by decide!⟩

end Catz
